import Mathlib

/-!
Verification development for the NWScript bytecode control-flow analysis core
(xoreos-tools, `src/nwscript/block.h` and `src/nwscript/ncsfile.h`).

The C++ data model uses raw pointers between blocks; following the design
notes of the specification we embed the block graph as an arena (a `List` of
blocks) with `Nat` handles, so pointer identity becomes handle equality.
Functions whose bodies appear in the given headers (`hasConditionalChildren`,
`hasUnconditionalChildren`) are translated directly from the source; functions
whose bodies live in translation units not part of the given sources are
modelled from the specification and are marked as such in their doc comments.
-/

namespace NWScript

/-- The types of an edge between blocks (`BlockEdgeType` in `block.h`). -/
inductive BlockEdgeType
  | kBlockEdgeTypeUnconditional
  | kBlockEdgeTypeConditionalTrue
  | kBlockEdgeTypeConditionalFalse
  | kBlockEdgeTypeFunctionCall
  | kBlockEdgeTypeFunctionReturn
  | kBlockEdgeTypeStoreState
  | kBlockEdgeTypeDead
  deriving DecidableEq, Repr

/-- Modelled from the spec: the per-block stack-analysis progress marker
(`StackAnalyzeState` lives in `stack.h`, which is not among the given
sources; the spec lists the states unvisited / in-progress / done). -/
inductive StackAnalyzeState
  | unvisited
  | inProgress
  | done
  deriving DecidableEq, Repr

/-- Modelled from the spec: the opcode classes of an instruction that are
relevant to control flow — unconditional jump, conditional jump (true to the
target, false to the fallthrough), subroutine call, return, store-state
(saved continuation) and all remaining (plain) instructions. The decoded
`Instruction` record itself is produced upstream and is not among the given
sources. -/
inductive OpClass
  | ujmp (target : Nat)
  | cjmp (target : Nat)
  | call (target : Nat)
  | ret
  | sstate
  | plain
  deriving DecidableEq, Repr

/-- Modelled from the spec: a decoded instruction — an address (unique,
monotonically increasing key), an opcode class with its resolved branch
target where applicable, and the net push/pop effect of the opcode on the
abstract stack (used only by the stack analyzer). -/
structure Instruction where
  address : Nat
  op : OpClass
  stackDelta : Int
  deriving DecidableEq, Repr

/-- A block of NWScript instructions (`struct Block` in `block.h`). The C++
pointer members (`parents`, `children` of type `const Block *`) become `Nat`
handles into the arena of all blocks of a script; `subRoutine` becomes an
optional handle into the subroutine list. -/
structure Block where
  address : Nat
  instructions : List Instruction
  parents : List Nat
  children : List Nat
  childrenTypes : List BlockEdgeType
  subRoutine : Option Nat
  stackAnalyzeState : StackAnalyzeState
  deriving DecidableEq, Repr

/-- Translated from `Block::hasConditionalChildren` in `block.h`: scan
`childrenTypes` for a conditional-true or conditional-false entry. -/
def hasConditionalChildren (b : Block) : Bool :=
  b.childrenTypes.any (fun t =>
    decide (t = BlockEdgeType.kBlockEdgeTypeConditionalTrue ∨
            t = BlockEdgeType.kBlockEdgeTypeConditionalFalse))

/-- Translated from `Block::hasUnconditionalChildren` in `block.h`: true when
`childrenTypes.size() == 1` and the single entry is unconditional, or when
`childrenTypes.size() == 2` and entry 0 or entry 1 is dead. -/
def hasUnconditionalChildren (b : Block) : Bool :=
  if b.childrenTypes.length = 1 ∧
      b.childrenTypes.get? 0 = some BlockEdgeType.kBlockEdgeTypeUnconditional then
    true
  else if b.childrenTypes.length = 2 ∧
      (b.childrenTypes.get? 0 = some BlockEdgeType.kBlockEdgeTypeDead ∨
       b.childrenTypes.get? 1 = some BlockEdgeType.kBlockEdgeTypeDead) then
    true
  else
    false

/-- Rendering of the claim's wording for `hasUnconditionalChildren`, written
from the spec sentence and not from the source, for comparison against the
source implementation: true iff the block has exactly one live (non-dead)
child edge, or exactly two child edges of which exactly one is tagged dead
and one is live. -/
def specHasUnconditionalChildren (b : Block) : Bool :=
  match b.childrenTypes with
  | [t] => decide (t ≠ BlockEdgeType.kBlockEdgeTypeDead)
  | [t1, t2] =>
    decide ((t1 = BlockEdgeType.kBlockEdgeTypeDead ∧ t2 ≠ BlockEdgeType.kBlockEdgeTypeDead) ∨
            (t1 ≠ BlockEdgeType.kBlockEdgeTypeDead ∧ t2 = BlockEdgeType.kBlockEdgeTypeDead))
  | _ => false

/-- A block with a single conditional-true child edge: the edge is live
(non-dead), so the claim's wording makes `hasUnconditionalChildren` true,
but the source returns false because the single entry is not unconditional. -/
def ceBlockSingleCond : Block :=
  { address := 0, instructions := [], parents := [], children := [1],
    childrenTypes := [BlockEdgeType.kBlockEdgeTypeConditionalTrue],
    subRoutine := none, stackAnalyzeState := StackAnalyzeState.unvisited }

/-- A block with a single unconditional child edge, used to apply the C1
amended theorem at a concrete input. -/
def wBlockSingleUncond : Block :=
  { address := 0, instructions := [], parents := [], children := [1],
    childrenTypes := [BlockEdgeType.kBlockEdgeTypeUnconditional],
    subRoutine := none, stackAnalyzeState := StackAnalyzeState.unvisited }

/-- A conditional pair whose false edge has been retagged dead: used to apply
the C10 theorem at a concrete input. -/
def wBlockCondDead : Block :=
  { address := 0, instructions := [], parents := [], children := [1, 2],
    childrenTypes := [BlockEdgeType.kBlockEdgeTypeConditionalTrue,
                      BlockEdgeType.kBlockEdgeTypeDead],
    subRoutine := none, stackAnalyzeState := StackAnalyzeState.unvisited }

/-- The value `SIZE_MAX` used as the not-found result of
`findParentChildBlock` (64-bit `size_t`). -/
def SIZE_MAX : Nat := 18446744073709551615

/-- Modelled from the spec: helper walking a children list with a running
index, comparing each entry against the candidate child by handle (the
embedding of C++ pointer identity), returning the index of the first match or
`SIZE_MAX` when none matches. The body of `findParentChildBlock` is in a
translation unit not among the given sources; only its declaration and
contract appear in `block.h`. -/
def findParentChildBlockAux (child : Nat) : Nat → List Nat → Nat
  | _, [] => SIZE_MAX
  | i, c :: rest => if c = child then i else findParentChildBlockAux child (i + 1) rest

/-- Modelled from the spec: find the index of a block within another block's
children; if the child does not occur among the parent's children, return
`SIZE_MAX` (contract from `block.h`). The lookup is by handle identity, never
by value equality of block contents. -/
def findParentChildBlock (parent : Block) (child : Nat) : Nat :=
  findParentChildBlockAux child 0 parent.children

/-- A concrete parent block used to apply the C6 theorem. -/
def wParentBlock : Block :=
  { address := 0, instructions := [], parents := [], children := [5, 9],
    childrenTypes := [BlockEdgeType.kBlockEdgeTypeConditionalTrue,
                      BlockEdgeType.kBlockEdgeTypeConditionalFalse],
    subRoutine := none, stackAnalyzeState := StackAnalyzeState.unvisited }

/-- The live (non-dead) child edges of a block: the children paired
index-for-index with their edge types, keeping only edges whose type is not
dead. -/
def liveChildEdges (b : Block) : List (Nat × BlockEdgeType) :=
  (b.children.zip b.childrenTypes).filter
    (fun e => decide (e.2 ≠ BlockEdgeType.kBlockEdgeTypeDead))

/-- Modelled from the spec: one hop of the linear-path walk — defined only
when the current block has a single live child edge, that edge is
unconditional, and the child has a single parent; otherwise the walk fails.
The body of `hasLinearPath` is in a translation unit not among the given
sources; the spec describes it as a bounded directed walk following the
single unconditional child pointer. -/
def linearStep (g : List Block) (x : Nat) : Option Nat :=
  match g.get? x with
  | none => none
  | some b =>
    match liveChildEdges b with
    | [(c, t)] =>
      if t = BlockEdgeType.kBlockEdgeTypeUnconditional then
        match g.get? c with
        | none => none
        | some cb => if cb.parents.length = 1 then some c else none
      else none
    | _ => none

/-- Modelled from the spec: the bounded walk of `hasLinearPath`, succeeding
as soon as the second block is reached and failing when a hop is impossible
or the fuel runs out. -/
def hasLinearPathFuel (g : List Block) : Nat → Nat → Nat → Bool
  | 0, x, y => decide (x = y)
  | fuel + 1, x, y =>
    if x = y then true
    else
      match linearStep g x with
      | none => false
      | some c => hasLinearPathFuel g fuel c y

/-- Modelled from the spec: is there a linear path between these two blocks
(contract from `block.h`)? The walk is bounded by the number of blocks, which
suffices because the hop function is deterministic. -/
def hasLinearPath (g : List Block) (block1 block2 : Nat) : Bool :=
  hasLinearPathFuel g g.length block1 block2

/-- The `n`-fold iteration of the linear hop: `linearWalk g n x` is the block
reached from `x` after `n` single-unconditional-live-child single-parent
hops, or `none` when some hop on the way is impossible. -/
def linearWalk (g : List Block) : Nat → Nat → Option Nat
  | 0, x => some x
  | n + 1, x =>
    match linearStep g x with
    | none => none
    | some c => linearWalk g n c

/-- A two-block graph with one unconditional edge from handle 0 into the
single-parent handle 1, used to apply the C7 theorem at a concrete input. -/
def wLinGraph : List Block :=
  [{ address := 0, instructions := [], parents := [], children := [1],
     childrenTypes := [BlockEdgeType.kBlockEdgeTypeUnconditional],
     subRoutine := none, stackAnalyzeState := StackAnalyzeState.unvisited },
   { address := 1, instructions := [], parents := [0], children := [],
     childrenTypes := [], subRoutine := none,
     stackAnalyzeState := StackAnalyzeState.unvisited }]

/-- Update the element at an index of a list in place, returning the list
unchanged when the index is out of range (the embedding of an in-place
mutation through a block handle). -/
def updateAt {α : Type _} : Nat → (α → α) → List α → List α
  | _, _, [] => []
  | 0, f, a :: rest => f a :: rest
  | n + 1, f, a :: rest => a :: updateAt n f rest

/-- Modelled from the spec: the set of addresses that are the declared target
of a branch or call anywhere in the stream — each such instruction starts a
new block. -/
def branchTargets (instrs : List Instruction) : List Nat :=
  instrs.foldr (fun i acc =>
    match i.op with
    | OpClass.ujmp t => t :: acc
    | OpClass.cjmp t => t :: acc
    | OpClass.call t => t :: acc
    | _ => acc) []

/-- Modelled from the spec: is this instruction branching, calling, returning
or state-storing (so that the instruction immediately following it starts a
new block)? -/
def isControlFlow (i : Instruction) : Bool :=
  match i.op with
  | OpClass.ujmp _ => true
  | OpClass.cjmp _ => true
  | OpClass.call _ => true
  | OpClass.ret => true
  | OpClass.sstate => true
  | OpClass.plain => false

/-- Pair every instruction after the first with its block-boundary flag: a
boundary occurs when the previous instruction is a control-flow instruction
or the instruction's address is a declared branch/call target. -/
def flagAfter (targets : List Nat) (prev : Instruction) :
    List Instruction → List (Instruction × Bool)
  | [] => []
  | i :: rest =>
    (i, isControlFlow prev || decide (i.address ∈ targets)) :: flagAfter targets i rest

/-- Modelled from the spec: pair every instruction with its block-boundary
flag; the first instruction always starts a block. -/
def flagBoundaries (targets : List Nat) : List Instruction → List (Instruction × Bool)
  | [] => []
  | i :: rest => (i, true) :: flagAfter targets i rest

/-- Chop a flagged sequence into contiguous runs, starting a new run at every
element whose flag is set (the first element always starts a run). -/
def group {α : Type _} : List (α × Bool) → List (List α)
  | [] => []
  | [(a, _)] => [[a]]
  | (a, _) :: (b, fb) :: rest =>
    let gs := group ((b, fb) :: rest)
    if fb then [a] :: gs
    else
      match gs with
      | [] => [[a]]
      | g1 :: gs2 => (a :: g1) :: gs2

/-- Modelled from the spec: a freshly opened block — its address is its first
instruction's address, it owns its run of instructions, and it has no edges
yet. -/
def mkBlock (is : List Instruction) : Block :=
  { address := ((is.head?).map Instruction.address).getD 0,
    instructions := is, parents := [], children := [], childrenTypes := [],
    subRoutine := none, stackAnalyzeState := StackAnalyzeState.unvisited }

/-- Modelled from the spec: split the instruction stream into basic blocks at
every control-flow discontinuity — the first instruction, every declared
branch/call target, and every instruction following a branching, calling,
returning or state-storing instruction. The body of `constructBlocks` is in a
translation unit not among the given sources; only its declaration and
contract appear in `block.h`. -/
def splitBlocks (instrs : List Instruction) : List Block :=
  (group (flagBoundaries (branchTargets instrs) instrs)).map mkBlock

/-- Add one edge to the graph: append the child handle and its edge type to
the parent's `children`/`childrenTypes` (index-for-index) and append the
parent handle to the child's `parents` (the symmetric bookkeeping of the
spec); out-of-range handles leave the graph unchanged (a malformed target is
a fatal load error upstream and never reaches edge linking). -/
def appendChild (c : Nat) (t : BlockEdgeType) (b : Block) : Block :=
  { b with children := b.children ++ [c], childrenTypes := b.childrenTypes ++ [t] }

def appendParent (p : Nat) (b : Block) : Block :=
  { b with parents := b.parents ++ [p] }

def addEdge (g : List Block) (p c : Nat) (t : BlockEdgeType) : List Block :=
  if p < g.length ∧ c < g.length then
    updateAt c (appendParent p) (updateAt p (appendChild c t) g)
  else g

/-- Fold a list of edges over the graph with `addEdge`. -/
def applyEdges (g : List Block) (es : List (Nat × Nat × BlockEdgeType)) : List Block :=
  es.foldl (fun acc e => addEdge acc e.1 e.2.1 e.2.2) g

/-- Find the handle of the block starting at an address. -/
def blockIndexAtAux (addr : Nat) : Nat → List Block → Option Nat
  | _, [] => none
  | i, b :: rest => if b.address = addr then some i else blockIndexAtAux addr (i + 1) rest

/-- Find the handle of the block starting at the given address, if any. -/
def blockIndexAt (g : List Block) (addr : Nat) : Option Nat :=
  blockIndexAtAux addr 0 g

/-- The opcode class of a block's terminator (last) instruction. -/
def lastOp (b : Block) : Option OpClass :=
  (b.instructions.getLast?).map Instruction.op

/-- Modelled from the spec: the intra-subroutine edges contributed by one
block's terminator — unconditional jump to the target block; conditional
jump as a conditional-true edge to the target and a conditional-false edge to
the fallthrough block; plain fallthrough as an unconditional edge to the next
block; store-state as a store-state edge seeding the following instruction's
block; return and call contribute no intra edge here (a call site's
continuation is reached via function-return edges, not its own fallthrough). -/
def intraEdgesOf (g : List Block) (i : Nat) (b : Block) :
    List (Nat × Nat × BlockEdgeType) :=
  match lastOp b with
  | none => []
  | some (OpClass.ujmp t) =>
    match blockIndexAt g t with
    | some j => [(i, j, BlockEdgeType.kBlockEdgeTypeUnconditional)]
    | none => []
  | some (OpClass.cjmp t) =>
    (match blockIndexAt g t with
     | some j => [(i, j, BlockEdgeType.kBlockEdgeTypeConditionalTrue)]
     | none => []) ++
    (if i + 1 < g.length then
      [(i, i + 1, BlockEdgeType.kBlockEdgeTypeConditionalFalse)]
     else [])
  | some (OpClass.call _) => []
  | some OpClass.ret => []
  | some OpClass.sstate =>
    if i + 1 < g.length then
      [(i, i + 1, BlockEdgeType.kBlockEdgeTypeStoreState)]
    else []
  | some OpClass.plain =>
    if i + 1 < g.length then
      [(i, i + 1, BlockEdgeType.kBlockEdgeTypeUnconditional)]
    else []

/-- All intra-subroutine edges of the split blocks. -/
def allIntraEdges (g : List Block) : List (Nat × Nat × BlockEdgeType) :=
  (List.range g.length).flatMap (fun i =>
    match g.get? i with
    | some b => intraEdgesOf g i b
    | none => [])

/-- Link all intra-subroutine edges into the split blocks. -/
def linkIntra (g : List Block) : List Block :=
  applyEdges g (allIntraEdges g)

/-- Is this edge type intra-subroutine (unconditional, conditional or dead),
as opposed to crossing a subroutine boundary (call, return, store-state)? -/
def isIntraEdgeType (t : BlockEdgeType) : Bool :=
  match t with
  | BlockEdgeType.kBlockEdgeTypeUnconditional => true
  | BlockEdgeType.kBlockEdgeTypeConditionalTrue => true
  | BlockEdgeType.kBlockEdgeTypeConditionalFalse => true
  | BlockEdgeType.kBlockEdgeTypeDead => true
  | _ => false

/-- The intra-subroutine successors of a block handle. -/
def intraSuccs (g : List Block) (n : Nat) : List Nat :=
  match g.get? n with
  | none => []
  | some b =>
    ((b.children.zip b.childrenTypes).filter (fun e => isIntraEdgeType e.2)).map Prod.fst

/-- Fuelled breadth-first search collecting every handle reachable from the
frontier through the given successor function. -/
def reachBFSAux (succs : Nat → List Nat) : Nat → List Nat → List Nat → List Nat
  | 0, _, visited => visited
  | _ + 1, [], visited => visited
  | fuel + 1, n :: rest, visited =>
    if decide (n ∈ visited) then reachBFSAux succs fuel rest visited
    else reachBFSAux succs fuel (succs n ++ rest) (n :: visited)

/-- Fuel sufficient for the breadth-first searches on a given graph: one unit
per frontier entry ever pushed (every block plus every edge endpoint). -/
def bfsFuel (g : List Block) : Nat :=
  (g.map (fun b => b.children.length)).sum + g.length + 1

/-- Modelled from the spec: the blocks of the subroutine seeded at an entry
handle — grown by following intra-subroutine edges (unconditional,
conditional, dead) and never crossing call/return/store-state boundaries. -/
def regionOf (g : List Block) (e : Nat) : List Nat :=
  reachBFSAux (intraSuccs g) (bfsFuel g) [e] []

/-- Does the block's terminator return? -/
def endsInRet (g : List Block) (n : Nat) : Bool :=
  match g.get? n with
  | none => false
  | some b => decide (lastOp b = some OpClass.ret)

/-- Modelled from the spec: the cross-subroutine edges — a function-call edge
from each call site into the callee's entry block, and a function-return edge
from each return-terminated block of the callee's region back to the call
site's continuation block. -/
def callEdgesOf (g : List Block) : List (Nat × Nat × BlockEdgeType) :=
  (List.range g.length).flatMap (fun i =>
    match g.get? i with
    | none => []
    | some b =>
      match lastOp b with
      | some (OpClass.call t) =>
        match blockIndexAt g t with
        | none => []
        | some e =>
          (i, e, BlockEdgeType.kBlockEdgeTypeFunctionCall) ::
          (if i + 1 < g.length then
            ((regionOf g e).filter (endsInRet g)).map
              (fun r => (r, i + 1, BlockEdgeType.kBlockEdgeTypeFunctionReturn))
           else [])
      | _ => [])

/-- Modelled from the spec: construct a control flow graph of interconnected
blocks from the complete set of script instructions (contract from
`block.h`) — split the stream into blocks at every control-flow
discontinuity, then link intra-subroutine edges, then link call and return
edges. -/
def constructBlocks (instructions : List Instruction) : List Block :=
  let g1 := linkIntra (splitBlocks instructions)
  applyEdges g1 (callEdgesOf g1)

/-- A concrete three-instruction stream — a conditional jump at address 0
targeting address 2, then two plain instructions — used to apply the C2
theorem. -/
def wInstrs : List Instruction :=
  [{ address := 0, op := OpClass.cjmp 2, stackDelta := 0 },
   { address := 1, op := OpClass.plain, stackDelta := 0 },
   { address := 2, op := OpClass.plain, stackDelta := 0 }]

/-- The edge bookkeeping of a block seen through a handle: its children
handles, parent handles and the number of edge-type tags. -/
def edgeSkel (b : Block) : List Nat × List Nat × Nat :=
  (b.children, b.parents, b.childrenTypes.length)

/-- Is the edge bookkeeping at one handle well-formed: the children are
paired index-for-index with edge types (equal lengths), every child handle is
valid, and the handle occurs in every child's parents. -/
def wfBlockAt (g : List Block) (p : Nat) : Bool :=
  (g.get? p).all (fun b =>
    decide (b.children.length = b.childrenTypes.length) &&
    b.children.all (fun ch =>
      (g.get? ch).any (fun cb => decide (p ∈ cb.parents))))

/-- Is the whole graph's edge bookkeeping well-formed (the spec's symmetric
parent/child invariant)? -/
def wfB (g : List Block) : Bool :=
  (List.range g.length).all (wfBlockAt g)

/-- The parent-side and child-side updates of `addEdge`, combined as the
change `addEdge` makes to the block at an arbitrary handle `q`. -/
def edgeUpd (p c : Nat) (t : BlockEdgeType) (q : Nat) (b : Block) : Block :=
  if q = c then appendParent p (if q = p then appendChild c t b else b)
  else (if q = p then appendChild c t b else b)

/-- Map over a list with the index of each element, starting the count at a
given offset. -/
def mapIdxFrom {α β : Type _} (f : Nat → α → β) : Nat → List α → List β
  | _, [] => []
  | i, a :: rest => f i a :: mapIdxFrom f (i + 1) rest

/-- The tag-insensitive shape of the graph: the children and parent handle
lists of every block, with addresses. Dead-edge detection may consult only
this shape, since it itself never changes it. -/
def skeleton (g : List Block) : List (List Nat × List Nat) :=
  g.map (fun b => (b.children, b.parents))

/-- The successor function of the dead-edge reachability re-check: all
children by handle, except that the candidate edge (parent `p`, child index
`i`) is removed. -/
def reachSkelSuccs (sk : List (List Nat × List Nat)) (p i n : Nat) : List Nat :=
  match sk.get? n with
  | none => []
  | some pr => if n = p then pr.1.eraseIdx i else pr.1

/-- Fuel sufficient for the dead-edge reachability search. -/
def skelFuel (sk : List (List Nat × List Nat)) : Nat :=
  (sk.map (fun pr => pr.1.length)).sum + sk.length + 1

/-- Modelled from the spec: the static criterion retagging one side of a
conditional pair as dead — the branch's target block has no other parent
than the branching block and is unreachable from the script entry (handle 0)
once the candidate edge itself is removed (the spec's "reachability re-check
after provisional construction"). The criterion reads only the graph's
tag-insensitive skeleton. -/
def deadAtSkel (sk : List (List Nat × List Nat)) (p i : Nat) : Bool :=
  match sk.get? p with
  | none => false
  | some pr =>
    match pr.1.get? i with
    | none => false
    | some c =>
      (match sk.get? c with
       | none => false
       | some cpr => decide (cpr.2 = [p])) &&
      !(decide (c ∈ reachBFSAux (reachSkelSuccs sk p i) (skelFuel sk) [0] []))

/-- The dead-edge criterion on the block graph, evaluated through its
skeleton only. -/
def deadAt (g : List Block) (p i : Nat) : Bool :=
  deadAtSkel (skeleton g) p i

/-- Is this edge-type list a conditional true/false pair (the only shape the
dead-edge pass examines)? -/
def isCondPair (ts : List BlockEdgeType) : Bool :=
  match ts with
  | [t1, t2] =>
    decide ((t1 = BlockEdgeType.kBlockEdgeTypeConditionalTrue ∧
             t2 = BlockEdgeType.kBlockEdgeTypeConditionalFalse) ∨
            (t1 = BlockEdgeType.kBlockEdgeTypeConditionalFalse ∧
             t2 = BlockEdgeType.kBlockEdgeTypeConditionalTrue))
  | _ => false

/-- Retag every edge the criterion proves dead, in place. -/
def retagTypes (d : Nat → Bool) (ts : List BlockEdgeType) : List BlockEdgeType :=
  mapIdxFrom (fun i t => if d i then BlockEdgeType.kBlockEdgeTypeDead else t) 0 ts

/-- Retag one block's conditional pair according to the dead-edge criterion,
leaving every other field — and every block without a conditional pair —
untouched. -/
def retagBlock (g : List Block) (p : Nat) (b : Block) : Block :=
  if isCondPair b.childrenTypes then
    { b with childrenTypes := retagTypes (deadAt g p) b.childrenTypes }
  else b

/-- Modelled from the spec: find edges between blocks that are logically dead
and will never be taken, and update their edge type to
`kBlockEdgeTypeDead` in place (contract from `block.h`). The body of
`findDeadBlockEdges` is in a translation unit not among the given sources. -/
def findDeadBlockEdges (g : List Block) : List Block :=
  mapIdxFrom (retagBlock g) 0 g

/-- A concrete graph — one block with a conditional pair into two return
blocks — used to apply the frame theorem of the dead-edge pass. -/
def wGraphFrame : List Block :=
  [{ address := 0, instructions := [], parents := [],
     children := [1, 2],
     childrenTypes := [BlockEdgeType.kBlockEdgeTypeConditionalTrue,
                       BlockEdgeType.kBlockEdgeTypeConditionalFalse],
     subRoutine := none, stackAnalyzeState := StackAnalyzeState.unvisited },
   { address := 1, instructions := [], parents := [0], children := [],
     childrenTypes := [], subRoutine := none,
     stackAnalyzeState := StackAnalyzeState.unvisited },
   { address := 2, instructions := [], parents := [0], children := [],
     childrenTypes := [], subRoutine := none,
     stackAnalyzeState := StackAnalyzeState.unvisited }]

/-- Modelled from the spec: the role tag of a subroutine — start (contains
the very first instruction), global-initializer, main, store-state
(synthetic, created by a store-state edge) or normal. -/
inductive SubRoutineType
  | kSubRoutineTypeStart
  | kSubRoutineTypeGlobal
  | kSubRoutineTypeMain
  | kSubRoutineTypeStoreState
  | kSubRoutineTypeNormal
  deriving DecidableEq, Repr

/-- Modelled from the spec: a subroutine — an entry address, the entry block
handle, the set of blocks grown from the entry by intra-subroutine edges,
and a role tag. -/
structure SubRoutine where
  address : Nat
  entry : Nat
  blocks : List Nat
  stype : SubRoutineType
  deriving DecidableEq, Repr

/-- All targets of function-call or store-state edges: each seeds a new
subroutine. -/
def callTargets (g : List Block) : List Nat :=
  g.flatMap (fun b =>
    ((b.children.zip b.childrenTypes).filter (fun e =>
      decide (e.2 = BlockEdgeType.kBlockEdgeTypeFunctionCall ∨
              e.2 = BlockEdgeType.kBlockEdgeTypeStoreState))).map Prod.fst)

/-- Is this handle the target of some store-state edge (so that its
subroutine is tagged store-state)? -/
def isStoreStateTarget (g : List Block) (e : Nat) : Bool :=
  g.any (fun b =>
    (b.children.zip b.childrenTypes).any (fun pr =>
      decide (pr.1 = e ∧ pr.2 = BlockEdgeType.kBlockEdgeTypeStoreState)))

/-- Build the subroutine seeded at an entry handle. -/
def mkSubRoutine (g : List Block) (st : SubRoutineType) (e : Nat) : SubRoutine :=
  { address := ((g.get? e).map Block.address).getD 0,
    entry := e, blocks := regionOf g e, stype := st }

/-- Modelled from the spec: partition the block graph into subroutines — the
blocks reachable from the script's first block without crossing a call or
store-state edge form the start subroutine; every call/store-state edge
target seeds a further subroutine, tagged store-state when seeded by a
store-state edge (the global-initializer/main refinement of the remaining
roles is a later annotation and is not needed by any block-level claim). -/
def identifySubRoutines (g : List Block) : List SubRoutine :=
  match g with
  | [] => []
  | _ :: _ =>
    mkSubRoutine g SubRoutineType.kSubRoutineTypeStart 0 ::
    ((callTargets g).dedup.filter (fun e => decide (e ≠ 0))).map (fun e =>
      mkSubRoutine g
        (if isStoreStateTarget g e then SubRoutineType.kSubRoutineTypeStoreState
         else SubRoutineType.kSubRoutineTypeNormal) e)

/-- Find the index of the subroutine owning a block handle. -/
def subIndexOfAux (h : Nat) : Nat → List SubRoutine → Option Nat
  | _, [] => none
  | i, s :: rest => if h ∈ s.blocks then some i else subIndexOfAux h (i + 1) rest

/-- Find the index of the first subroutine whose block set contains the
handle. -/
def subIndexOf (subs : List SubRoutine) (h : Nat) : Option Nat :=
  subIndexOfAux h 0 subs

/-- Modelled from the spec: record the owning subroutine on every block (the
`subRoutine` back-reference of `struct Block`), once subroutine
identification completes. -/
def assignSubRoutines (g : List Block) (subs : List SubRoutine) : List Block :=
  mapIdxFrom (fun i b => { b with subRoutine := subIndexOf subs i }) 0 g

/-- Modelled from the spec: the analysis facade for one script (`NCSFile` in
`ncsfile.h`) after the load → link → identify orchestration: it owns the
instruction, block and subroutine sequences, the multiple-global anomaly
flag, and the stack-analysis-succeeded flag. -/
structure NCSFile where
  instructions : List Instruction
  blocks : List Block
  subRoutines : List SubRoutine
  multipleGlobal : Bool
  stackAnalysisFlag : Bool
  deriving DecidableEq, Repr

/-- Modelled from the spec: return the _start() subroutine where execution
starts; if there are no subroutines in this script at all, return null
(contract from `ncsfile.h`). -/
def NCSFile.getStartSubRoutine (f : NCSFile) : Option SubRoutine :=
  f.subRoutines.find? (fun s =>
    decide (s.stype = SubRoutineType.kSubRoutineTypeStart))

/-- Did we successfully analyze the script stack (contract from
`ncsfile.h`)? -/
def NCSFile.hasStackAnalysis (f : NCSFile) : Bool :=
  f.stackAnalysisFlag

/-- Modelled from the spec: the orchestration sequence building the facade
from the decoded instruction stream — block construction, dead-edge
detection, subroutine identification; the stack-analysis flag starts false
and is set only by `analyzeStack`. -/
def loadNCS (instrs : List Instruction) : NCSFile :=
  let g1 := findDeadBlockEdges (constructBlocks instrs)
  let subs := identifySubRoutines g1
  { instructions := instrs, blocks := assignSubRoutines g1 subs,
    subRoutines := subs, multipleGlobal := false, stackAnalysisFlag := false }

/-- Two plain instructions: a concrete script used to apply the C9 theorem. -/
def wInstrsStart : List Instruction :=
  [{ address := 0, op := OpClass.plain, stackDelta := 0 },
   { address := 1, op := OpClass.ret, stackDelta := 0 }]

/-- The net push/pop effect of one block on the abstract stack depth. -/
def blockDelta (b : Block) : Int :=
  (b.instructions.map Instruction.stackDelta).sum

/-- The intra-subroutine child handles of a block (the edges along which the
stack analyzer propagates a block's exit shape unchanged). -/
def intraChildHandles (b : Block) : List Nat :=
  ((b.children.zip b.childrenTypes).filter (fun e => isIntraEdgeType e.2)).map Prod.fst

/-- Modelled from the spec: the stack analyzer's worklist loop — take a block
off the worklist, interpret it abstractly (here: propagate its entry depth
plus its push/pop effect), re-enqueue every intra child whose recorded entry
shape disagrees, and stop with a fixed point when the worklist empties or
give up (`none`) when the iteration bound is exceeded. -/
def worklistLoop (g : List Block) : Nat → List (Option Int) → List Nat → Option (List (Option Int))
  | _, shapes, [] => some shapes
  | 0, _, _ :: _ => none
  | bound + 1, shapes, h :: rest =>
    match shapes.getD h none with
    | none => worklistLoop g bound shapes rest
    | some entry =>
      match g.get? h with
      | none => worklistLoop g bound shapes rest
      | some b =>
        let ex := entry + blockDelta b
        let upd := (intraChildHandles b).filter
          (fun c => decide (shapes.getD c none ≠ some ex))
        worklistLoop g bound (upd.foldl (fun sh c => sh.set c (some ex)) shapes) (upd ++ rest)

/-- The all-unknown entry-shape table. -/
def initShapes (g : List Block) : List (Option Int) :=
  g.map (fun _ => none)

/-- Modelled from the spec: run the worklist analysis of one subroutine,
starting from its entry block with an initial abstract stack. -/
def runSub (g : List Block) (bound : Nat) (s : SubRoutine) : Option (List (Option Int)) :=
  worklistLoop g bound ((initShapes g).set s.entry (some 0)) [s.entry]

/-- The per-block update `analyzeStack` performs: blocks of every subroutine
whose analysis converged are marked done; nothing else on the block changes. -/
def stackStateUpd (f : NCSFile) (bound : Nat) (i : Nat) (b : Block) : Block :=
  if f.subRoutines.any
      (fun s => (runSub f.blocks bound s).isSome && decide (i ∈ s.blocks)) then
    { b with stackAnalyzeState := StackAnalyzeState.done }
  else b

/-- Modelled from the spec: perform a deep analysis of the script stack
(contract from `ncsfile.h`) — run the fixed-point worklist pass on every
subroutine with the given iteration bound; when a subroutine's bound is
exceeded its analysis is abandoned (no crash, the loop just returns `none`
for it), and the overall stack-analysis-succeeded flag is set only when
every subroutine converged. -/
def analyzeStack (f : NCSFile) (bound : Nat) : NCSFile :=
  { f with
    blocks := mapIdxFrom (stackStateUpd f bound) 0 f.blocks,
    stackAnalysisFlag :=
      f.subRoutines.all (fun s => (runSub f.blocks bound s).isSome) }

/-- Everything a read-only query can see of a block apart from the
stack-analysis marker: address, instructions, parents, children and edge
types. -/
def querySkel (b : Block) :
    Nat × List Instruction × List Nat × List Nat × List BlockEdgeType :=
  (b.address, b.instructions, b.parents, b.children, b.childrenTypes)

/-- A concrete three-block facade — a conditional pair out of the entry
block, all three blocks in one start subroutine — used to apply the C5
theorem. -/
def wStartSub : SubRoutine :=
  { address := 0, entry := 0, blocks := [0, 1, 2],
    stype := SubRoutineType.kSubRoutineTypeStart }

/-- A concrete facade whose block graph satisfies the edge invariant. -/
def wFacade : NCSFile :=
  { instructions := [], blocks := wGraphFrame, subRoutines := [wStartSub],
    multipleGlobal := false, stackAnalysisFlag := false }

/-- C1 counterexample: on a block whose only child edge is conditional-true
(hence live), the source's `hasUnconditionalChildren` returns false while the
claim ("exactly one live (non-dead) child edge") demands true; the claim as
stated is therefore false at this concrete input. -/
theorem hasUnconditionalChildren_claim_false :
    hasUnconditionalChildren ceBlockSingleCond = false ∧
    specHasUnconditionalChildren ceBlockSingleCond = true := by
  decide

/-- C1 (amended): `hasUnconditionalChildren` returns true iff the block has
exactly one child edge tagged unconditional, or exactly two child edges of
which at least one is tagged dead. -/
theorem hasUnconditionalChildren_amended (b : Block) :
    hasUnconditionalChildren b = true ↔
      (b.childrenTypes = [BlockEdgeType.kBlockEdgeTypeUnconditional] ∨
       (b.childrenTypes.length = 2 ∧
        (b.childrenTypes.get? 0 = some BlockEdgeType.kBlockEdgeTypeDead ∨
         b.childrenTypes.get? 1 = some BlockEdgeType.kBlockEdgeTypeDead))) := by
  unfold hasUnconditionalChildren
  match h : b.childrenTypes with
  | [] => simp [h]
  | [t] => cases t <;> simp [h]
  | t1 :: t2 :: t3 :: rest => simp [h]
  | [t1, t2] =>
    constructor
    · intro hb
      by_cases h1 : t1 = BlockEdgeType.kBlockEdgeTypeDead
      · exact Or.inr ⟨rfl, Or.inl (by simp [h1])⟩
      · by_cases h2 : t2 = BlockEdgeType.kBlockEdgeTypeDead
        · exact Or.inr ⟨rfl, Or.inr (by simp [h2])⟩
        · simp [h1, h2] at hb
    · intro hb
      rcases hb with hb | ⟨-, hb⟩
      · simp at hb
      · rcases hb with hb | hb <;> simp_all

/-- C1 amended-claim witness: the amended characterization evaluates as
stated on a concrete single-unconditional-child block. -/
theorem hasUnconditionalChildren_amended_witness :
    hasUnconditionalChildren wBlockSingleUncond = true :=
  (hasUnconditionalChildren_amended wBlockSingleUncond).mpr (Or.inl rfl)

/-- C10: `hasConditionalChildren` is true iff some entry of `childrenTypes`
is conditional-true or conditional-false; consequently, on a block whose
conditional pair has had one edge retagged dead (childrenTypes `[t, dead]` or
`[dead, t]` with `t` conditional), `hasConditionalChildren` and
`hasUnconditionalChildren` are both true — the predicates are not mutually
exclusive. -/
theorem hasConditionalChildren_iff :
    (∀ b : Block, hasConditionalChildren b = true ↔
      ∃ t ∈ b.childrenTypes,
        t = BlockEdgeType.kBlockEdgeTypeConditionalTrue ∨
        t = BlockEdgeType.kBlockEdgeTypeConditionalFalse) ∧
    (∀ (b : Block) (t : BlockEdgeType),
      (t = BlockEdgeType.kBlockEdgeTypeConditionalTrue ∨
       t = BlockEdgeType.kBlockEdgeTypeConditionalFalse) →
      (b.childrenTypes = [t, BlockEdgeType.kBlockEdgeTypeDead] ∨
       b.childrenTypes = [BlockEdgeType.kBlockEdgeTypeDead, t]) →
      hasConditionalChildren b = true ∧ hasUnconditionalChildren b = true) := by
  constructor
  · intro b
    simp [hasConditionalChildren, List.any_eq_true]
  · intro b t ht hb
    rcases ht with rfl | rfl <;> rcases hb with hb | hb <;>
      simp [hasConditionalChildren, hasUnconditionalChildren, hb]

/-- C10 witness: both predicates evaluate to true on the concrete block whose
conditional pair has its false edge retagged dead. -/
theorem hasConditionalChildren_iff_witness :
    hasConditionalChildren wBlockCondDead = true ∧
    hasUnconditionalChildren wBlockCondDead = true :=
  hasConditionalChildren_iff.2 wBlockCondDead
    BlockEdgeType.kBlockEdgeTypeConditionalTrue (Or.inl rfl) (Or.inl rfl)

theorem findParentChildBlockAux_not_mem (child : Nat) (l : List Nat) (i : Nat)
    (h : child ∉ l) : findParentChildBlockAux child i l = SIZE_MAX := by
  induction l generalizing i with
  | nil => rfl
  | cons c rest ih =>
    have hc : ¬(c = child) := fun hc => h (hc ▸ List.mem_cons_self c rest)
    simp only [findParentChildBlockAux, if_neg hc]
    exact ih (i + 1) (fun hm => h (List.mem_cons_of_mem c hm))

theorem findParentChildBlockAux_mem (child : Nat) (l : List Nat) (i : Nat)
    (h : child ∈ l) :
    ∃ j, findParentChildBlockAux child i l = i + j ∧ l.get? j = some child := by
  induction l generalizing i with
  | nil => cases h
  | cons c rest ih =>
    by_cases hc : c = child
    · exact ⟨0, by simp [findParentChildBlockAux, hc], by simp [hc]⟩
    · have hm : child ∈ rest := by
        rcases List.mem_cons.1 h with h' | h'
        · exact absurd h'.symm hc
        · exact h'
      rcases ih (i + 1) hm with ⟨j, hj, hg⟩
      exact ⟨j + 1, by simpa [findParentChildBlockAux, hc, Nat.add_assoc, Nat.add_comm 1 j] using hj,
             by simpa using hg⟩

/-- C6: when the child occurs among the parent's children,
`findParentChildBlock` returns a valid index at which that child handle sits;
when it does not occur, the result is `SIZE_MAX` ("not found"); and the
result depends only on the parent's children handle list and the child's
handle — never on the value contents of any block — embedding the
identity/address-match contract. -/
theorem findParentChildBlock_spec (p : Block) (c : Nat) :
    (c ∈ p.children →
      findParentChildBlock p c < p.children.length ∧
      p.children.get? (findParentChildBlock p c) = some c) ∧
    (c ∉ p.children → findParentChildBlock p c = SIZE_MAX) ∧
    (∀ q : Block, q.children = p.children →
      findParentChildBlock q c = findParentChildBlock p c) := by
  refine ⟨fun h => ?_, fun h => findParentChildBlockAux_not_mem c p.children 0 h,
          fun q hq => by simp [findParentChildBlock, hq]⟩
  rcases findParentChildBlockAux_mem c p.children 0 h with ⟨j, hj, hg⟩
  have hj' : findParentChildBlock p c = j := by simpa [findParentChildBlock] using hj
  refine ⟨?_, by simpa [hj'] using hg⟩
  rw [hj']
  exact List.get?_eq_some.1 hg |>.1

/-- C6 witness: on a concrete parent with children `[5, 9]`, looking up child
`9` yields a valid index holding `9`, and looking up the absent child `7`
yields `SIZE_MAX`. -/
theorem findParentChildBlock_spec_witness :
    (9 ∈ wParentBlock.children ∧
     findParentChildBlock wParentBlock 9 < wParentBlock.children.length ∧
     wParentBlock.children.get? (findParentChildBlock wParentBlock 9) = some 9) ∧
    (7 ∉ wParentBlock.children ∧ findParentChildBlock wParentBlock 7 = SIZE_MAX) :=
  ⟨⟨by decide, ((findParentChildBlock_spec wParentBlock 9).1 (by decide)).1,
    ((findParentChildBlock_spec wParentBlock 9).1 (by decide)).2⟩,
   ⟨by decide, (findParentChildBlock_spec wParentBlock 7).2.1 (by decide)⟩⟩

theorem linearWalk_add (g : List Block) (a b x : Nat) :
    linearWalk g (a + b) x = (linearWalk g a x).bind (fun z => linearWalk g b z) := by
  induction a generalizing x with
  | zero => simp [linearWalk]
  | succ a ih =>
    rw [Nat.succ_add]
    simp only [linearWalk]
    cases linearStep g x with
    | none => simp
    | some c => simp [ih c]

theorem linearWalk_one (g : List Block) (x : Nat) :
    linearWalk g 1 x = linearStep g x := by
  simp only [linearWalk]
  cases linearStep g x <;> simp [linearWalk]

theorem linearStep_in_lt (g : List Block) (x c : Nat)
    (h : linearStep g x = some c) : x < g.length := by
  unfold linearStep at h
  split at h
  · simp at h
  · rename_i b hx
    exact (List.get?_eq_some.1 hx).1

theorem linearStep_out_lt (g : List Block) (x c : Nat)
    (h : linearStep g x = some c) : c < g.length := by
  unfold linearStep at h
  split at h
  · simp at h
  · split at h
    · split at h
      · split at h
        · simp at h
        · rename_i hc
          split at h
          · cases h
            exact (List.get?_eq_some.1 hc).1
          · simp at h
      · simp at h
    · simp at h

theorem hasLinearPathFuel_refl (g : List Block) (fuel x : Nat) :
    hasLinearPathFuel g fuel x x = true := by
  cases fuel <;> simp [hasLinearPathFuel]

theorem linearWalk_hasFuel (g : List Block) :
    ∀ n fuel x y : Nat, linearWalk g n x = some y → n ≤ fuel →
      hasLinearPathFuel g fuel x y = true := by
  intro n
  induction n with
  | zero =>
    intro fuel x y hw _
    simp only [linearWalk] at hw
    cases hw
    exact hasLinearPathFuel_refl g fuel x
  | succ n ih =>
    intro fuel x y hw hle
    match fuel, hle with
    | fuel + 1, hle =>
      simp only [linearWalk] at hw
      cases hs : linearStep g x with
      | none => rw [hs] at hw; cases hw
      | some c =>
        rw [hs] at hw
        by_cases hxy : x = y
        · simp [hasLinearPathFuel, hxy]
        · simp only [hasLinearPathFuel, if_neg hxy, hs]
          exact ih fuel c y hw (Nat.le_of_succ_le_succ hle)

theorem hasFuel_linearWalk (g : List Block) :
    ∀ fuel x y : Nat, hasLinearPathFuel g fuel x y = true →
      ∃ n, linearWalk g n x = some y := by
  intro fuel
  induction fuel with
  | zero =>
    intro x y h
    simp only [hasLinearPathFuel, decide_eq_true_eq] at h
    exact ⟨0, by simp [linearWalk, h]⟩
  | succ fuel ih =>
    intro x y h
    by_cases hxy : x = y
    · exact ⟨0, by simp [linearWalk, hxy]⟩
    · simp only [hasLinearPathFuel, if_neg hxy] at h
      cases hs : linearStep g x with
      | none => rw [hs] at h; cases h
      | some c =>
        rw [hs] at h
        rcases ih c y h with ⟨n, hn⟩
        exact ⟨n + 1, by simp [linearWalk, hs, hn]⟩

theorem linearWalk_lt (g : List Block) (x y m : Nat) (hm : 1 ≤ m)
    (h : linearWalk g m x = some y) : y < g.length := by
  have : linearWalk g ((m - 1) + 1) x = some y := by
    rwa [Nat.sub_add_cancel hm]
  rw [linearWalk_add] at this
  cases hw : linearWalk g (m - 1) x with
  | none => rw [hw] at this; cases this
  | some z =>
    rw [hw] at this
    simp only [Option.some_bind] at this
    rw [linearWalk_one] at this
    exact linearStep_out_lt g z y this

theorem exists_short_walk (g : List Block) (x y : Nat)
    (h : ∃ n, linearWalk g n x = some y) :
    ∃ n, n ≤ g.length ∧ linearWalk g n x = some y := by
  classical
  let N := Nat.find h
  have hN : linearWalk g N x = some y := Nat.find_spec h
  have hmin : ∀ m, m < N → linearWalk g m x ≠ some y := fun m hm => Nat.find_min h hm
  by_cases hle : N ≤ g.length
  · exact ⟨N, hle, hN⟩
  · exfalso
    have hlen : g.length < N := Nat.lt_of_not_le hle
    have hNpos : 1 ≤ N := Nat.lt_of_le_of_lt (Nat.zero_le _) hlen
    -- every intermediate point of the minimal walk is defined
    have hdef : ∀ m, m ≤ N → ∃ z, linearWalk g m x = some z := by
      intro m hm
      have : linearWalk g (m + (N - m)) x = some y := by
        rwa [Nat.add_sub_cancel' hm]
      rw [linearWalk_add] at this
      cases hw : linearWalk g m x with
      | none => rw [hw] at this; cases this
      | some z => exact ⟨z, rfl⟩
    -- every intermediate point is a valid handle
    have hx0 : x < g.length := by
      rcases hdef 1 hNpos with ⟨z, hz⟩
      rw [linearWalk_one] at hz
      exact linearStep_in_lt g x z hz
    have hrange : ∀ m, m ≤ N → ∀ z, linearWalk g m x = some z → z < g.length := by
      intro m _ z hz
      match m, hz with
      | 0, hz => simp only [linearWalk] at hz; cases hz; exact hx0
      | m + 1, hz => exact linearWalk_lt g x z (m + 1) (Nat.succ_le_succ (Nat.zero_le m)) hz
    -- the walk visits pairwise distinct handles up to step N
    have hinj : ∀ i j, i < j → j ≤ N → linearWalk g i x ≠ linearWalk g j x := by
      intro i j hij hjN heq
      rcases hdef j hjN with ⟨z, hz⟩
      have hwalk : linearWalk g (i + (N - j)) x = some y := by
        rw [linearWalk_add]
        rw [heq, hz]
        simp only [Option.some_bind]
        have : linearWalk g (j + (N - j)) x = some y := by
          rwa [Nat.add_sub_cancel' hjN]
        rw [linearWalk_add, hz] at this
        simpa using this
      have hlt : i + (N - j) < N := by omega
      exact hmin _ hlt hwalk
    -- pigeonhole over the handles
    let f : Fin (N + 1) → Fin g.length := fun i =>
      ⟨(linearWalk g i.1 x).getD 0, by
        rcases hdef i.1 (Nat.le_of_lt_succ i.2) with ⟨z, hz⟩
        rw [hz]
        exact hrange i.1 (Nat.le_of_lt_succ i.2) z hz⟩
    have hfinj : Function.Injective f := by
      intro i j hij
      rcases hdef i.1 (Nat.le_of_lt_succ i.2) with ⟨zi, hzi⟩
      rcases hdef j.1 (Nat.le_of_lt_succ j.2) with ⟨zj, hzj⟩
      have hval : zi = zj := by
        have := congrArg Fin.val hij
        simpa [f, hzi, hzj] using this
      rcases Nat.lt_trichotomy i.1 j.1 with hlt | heq | hgt
      · exact absurd (by rw [hzi, hzj, hval]) (hinj i.1 j.1 hlt (Nat.le_of_lt_succ j.2))
      · exact Fin.ext heq
      · exact absurd (by rw [hzj, hzi, hval]) (hinj j.1 i.1 hgt (Nat.le_of_lt_succ i.2))
    have hcard : N + 1 ≤ g.length := by
      have := Fintype.card_le_of_injective f hfinj
      simpa using this
    omega

/-- C7: `hasLinearPath` returns true exactly when the second block is reached
from the first by a chain of hops (`linearWalk`), each hop following the
single live child edge of its block — which must be of unconditional type —
into a block with a single parent (`linearStep`); any block on the way with
more than one live child, a non-unconditional single live edge, or a target
with more than one parent makes the hop impossible, and disconnected blocks,
having no such chain, yield false. -/
theorem hasLinearPath_iff (g : List Block) (block1 block2 : Nat) :
    hasLinearPath g block1 block2 = true ↔
      ∃ n, linearWalk g n block1 = some block2 := by
  constructor
  · intro h
    exact hasFuel_linearWalk g g.length block1 block2 h
  · intro h
    rcases exists_short_walk g block1 block2 h with ⟨n, hn, hw⟩
    exact linearWalk_hasFuel g n g.length block1 block2 hw hn

/-- C7 witness: on the concrete two-block graph the one-hop chain makes
`hasLinearPath` true from handle 0 to handle 1. -/
theorem hasLinearPath_iff_witness : hasLinearPath wLinGraph 0 1 = true :=
  (hasLinearPath_iff wLinGraph 0 1).mpr ⟨1, rfl⟩

theorem updateAt_length {α : Type _} (n : Nat) (f : α → α) (l : List α) :
    (updateAt n f l).length = l.length := by
  induction l generalizing n with
  | nil => cases n <;> rfl
  | cons a rest ih => cases n <;> simp [updateAt, ih]

theorem updateAt_get?_eq {α : Type _} (n : Nat) (f : α → α) (l : List α) :
    (updateAt n f l).get? n = (l.get? n).map f := by
  induction l generalizing n with
  | nil => cases n <;> rfl
  | cons a rest ih =>
    cases n with
    | zero => rfl
    | succ n => exact ih n

theorem updateAt_get?_ne {α : Type _} (n m : Nat) (f : α → α) (l : List α)
    (h : m ≠ n) : (updateAt n f l).get? m = l.get? m := by
  induction l generalizing n m with
  | nil => cases n <;> rfl
  | cons a rest ih =>
    cases n with
    | zero => cases m with
      | zero => exact absurd rfl h
      | succ m => rfl
    | succ n => cases m with
      | zero => rfl
      | succ m => exact ih n m (fun hc => h (by rw [hc]))

theorem map_updateAt {α β : Type _} (n : Nat) (f : α → α) (proj : α → β)
    (l : List α) (hproj : ∀ a, proj (f a) = proj a) :
    (updateAt n f l).map proj = l.map proj := by
  induction l generalizing n with
  | nil => cases n <;> rfl
  | cons a rest ih => cases n <;> simp [updateAt, hproj, ih]

theorem group_head {α : Type _} :
    ∀ (rest : List (α × Bool)) (a : α) (f : Bool),
      ∃ s gs, group ((a, f) :: rest) = (a :: s) :: gs := by
  intro rest
  induction rest with
  | nil => exact fun a f => ⟨[], [], rfl⟩
  | cons p rest ih =>
    intro a f
    rcases p with ⟨b, fb⟩
    cases fb with
    | false =>
      rcases ih b false with ⟨s', gs', hg⟩
      exact ⟨b :: s', gs', by simp [group, hg]⟩
    | true =>
      exact ⟨[], group ((b, true) :: rest), by simp [group]⟩

theorem flatten_group {α : Type _} :
    ∀ l : List (α × Bool), (group l).flatten = l.map Prod.fst := by
  intro l
  match l with
  | [] => rfl
  | [(a, _)] => rfl
  | (a, f) :: (b, fb) :: rest =>
    have ih := flatten_group ((b, fb) :: rest)
    cases fb with
    | true => simp only [group, if_pos rfl]; simpa using ih
    | false =>
      rcases group_head rest b false with ⟨s', gs', hg⟩
      rw [hg] at ih
      have ih' : s' ++ gs'.flatten = List.map Prod.fst rest := by simpa using ih
      have hgr : group ((a, f) :: (b, false) :: rest) = (a :: b :: s') :: gs' := by
        simp [group, hg]
      rw [hgr]
      simpa using ih'

theorem group_mem_ne_nil {α : Type _} :
    ∀ (l : List (α × Bool)) (s : List α), s ∈ group l → s ≠ [] := by
  intro l
  match l with
  | [] => intro s hs; cases hs
  | [(a, _)] =>
    intro s hs
    rcases List.mem_singleton.1 hs with rfl
    simp
  | (a, f) :: (b, fb) :: rest =>
    intro s hs
    have ih := group_mem_ne_nil ((b, fb) :: rest)
    cases fb with
    | true =>
      simp only [group, if_pos rfl] at hs
      rcases List.mem_cons.1 hs with rfl | hs
      · simp
      · exact ih s hs
    | false =>
      rcases group_head rest b false with ⟨s', gs', hg⟩
      have hgr : group ((a, f) :: (b, false) :: rest) = (a :: b :: s') :: gs' := by
        simp [group, hg]
      rw [hgr] at hs
      rcases List.mem_cons.1 hs with rfl | hs
      · simp
      · exact ih s (hg ▸ List.mem_cons_of_mem _ hs)

theorem map_fst_flagAfter (targets : List Nat) :
    ∀ (l : List Instruction) (prev : Instruction),
      (flagAfter targets prev l).map Prod.fst = l := by
  intro l
  induction l with
  | nil => intro prev; rfl
  | cons i rest ih => intro prev; simp [flagAfter, ih i]

theorem map_fst_flagBoundaries (targets : List Nat) (l : List Instruction) :
    (flagBoundaries targets l).map Prod.fst = l := by
  cases l with
  | nil => rfl
  | cons i rest => simp [flagBoundaries, map_fst_flagAfter targets rest i]

theorem flatten_splitBlocks (instrs : List Instruction) :
    ((splitBlocks instrs).map Block.instructions).flatten = instrs := by
  unfold splitBlocks
  rw [List.map_map]
  have : Block.instructions ∘ mkBlock = id := by
    funext is; rfl
  rw [this, List.map_id, flatten_group, map_fst_flagBoundaries]

theorem map_instructions_addEdge (g : List Block) (p c : Nat) (t : BlockEdgeType) :
    (addEdge g p c t).map Block.instructions = g.map Block.instructions := by
  unfold addEdge
  split
  · rw [map_updateAt c (appendParent p) Block.instructions _ (fun b => rfl),
        map_updateAt p (appendChild c t) Block.instructions _ (fun b => rfl)]
  · rfl

theorem map_instructions_applyEdges (es : List (Nat × Nat × BlockEdgeType)) :
    ∀ g : List Block,
      (applyEdges g es).map Block.instructions = g.map Block.instructions := by
  induction es with
  | nil => intro g; rfl
  | cons e rest ih =>
    intro g
    show (applyEdges (addEdge g e.1 e.2.1 e.2.2) rest).map Block.instructions = _
    rw [ih, map_instructions_addEdge]

theorem map_instructions_constructBlocks (instrs : List Instruction) :
    (constructBlocks instrs).map Block.instructions =
      (splitBlocks instrs).map Block.instructions := by
  unfold constructBlocks linkIntra
  rw [map_instructions_applyEdges, map_instructions_applyEdges]

theorem countP_flatten_nodup {β : Type _} [DecidableEq β] :
    ∀ (ll : List (List β)) (a : β), (ll.flatten).Nodup → a ∈ ll.flatten →
      ll.countP (fun s => decide (a ∈ s)) = 1 := by
  intro ll
  induction ll with
  | nil => intro a _ ha; cases ha
  | cons s rest ih =>
    intro a hnd ha
    rw [List.flatten_cons] at hnd ha
    rcases List.nodup_append.1 hnd with ⟨hs, hrest, hdisj⟩
    rw [List.countP_cons]
    by_cases hmem : a ∈ s
    · have hnot : a ∉ rest.flatten := fun hmem' => hdisj hmem hmem'
      have hz : rest.countP (fun u => decide (a ∈ u)) = 0 := by
        rw [List.countP_eq_zero]
        intro u hu
        simp only [decide_eq_true_eq]
        exact fun hau => hnot (List.mem_flatten.2 ⟨u, hu, hau⟩)
      simp [hz, hmem]
    · have ha' : a ∈ rest.flatten := by
        rcases List.mem_append.1 ha with h | h
        · exact absurd h hmem
        · exact h
      simp [ih a hrest ha', hmem]

/-- C2: for an instruction stream with strictly increasing addresses (the
spec's instruction data model), the blocks produced by `constructBlocks`
cover the input exactly — concatenating the blocks' instruction runs in
order gives back the whole stream (no gaps, no overlaps), every block is
non-empty, and every instruction address belongs to exactly one block. -/
theorem constructBlocks_covers (instrs : List Instruction)
    (hsorted : (instrs.map Instruction.address).Pairwise (· < ·)) :
    (((constructBlocks instrs).map Block.instructions).flatten = instrs) ∧
    (∀ b ∈ constructBlocks instrs, b.instructions ≠ []) ∧
    (∀ a, a ∈ instrs.map Instruction.address →
      (constructBlocks instrs).countP
        (fun b => decide (a ∈ b.instructions.map Instruction.address)) = 1) := by
  have hmaps : (constructBlocks instrs).map Block.instructions =
      group (flagBoundaries (branchTargets instrs) instrs) := by
    rw [map_instructions_constructBlocks]
    unfold splitBlocks
    rw [List.map_map]
    have h : Block.instructions ∘ mkBlock = id := funext fun is => rfl
    rw [h, List.map_id]
  have hjoin : ((constructBlocks instrs).map Block.instructions).flatten = instrs := by
    rw [hmaps, flatten_group, map_fst_flagBoundaries]
  refine ⟨hjoin, ?_, ?_⟩
  · intro b hb
    have : b.instructions ∈ (constructBlocks instrs).map Block.instructions :=
      List.mem_map.2 ⟨b, hb, rfl⟩
    rw [hmaps] at this
    exact group_mem_ne_nil _ _ this
  · intro a ha
    have hnd : (instrs.map Instruction.address).Nodup :=
      hsorted.imp (fun h => Nat.ne_of_lt h)
    have hflat2 : (((constructBlocks instrs).map Block.instructions).map
        (List.map Instruction.address)).flatten = instrs.map Instruction.address := by
      rw [← List.map_flatten, hjoin]
    have hkey := countP_flatten_nodup
      (((constructBlocks instrs).map Block.instructions).map (List.map Instruction.address)) a
      (by rw [hflat2]; exact hnd) (by rw [hflat2]; exact ha)
    rw [List.countP_map, List.countP_map] at hkey
    exact hkey

/-- C2 witness: on the concrete stream the block runs concatenate back to
the stream and address 2 belongs to exactly one block. -/
theorem constructBlocks_covers_witness :
    (((constructBlocks wInstrs).map Block.instructions).flatten = wInstrs) ∧
    (constructBlocks wInstrs).countP
      (fun b => decide (2 ∈ b.instructions.map Instruction.address)) = 1 :=
  ⟨(constructBlocks_covers wInstrs (by decide)).1,
   (constructBlocks_covers wInstrs (by decide)).2.2 2 (by decide)⟩

theorem all_congr_bool {α : Type _} {l : List α} {f h : α → Bool}
    (hfh : ∀ a ∈ l, f a = h a) : l.all f = l.all h := by
  induction l with
  | nil => rfl
  | cons a rest ih =>
    simp only [List.all_cons]
    rw [hfh a (List.mem_cons_self a rest),
        ih (fun x hx => hfh x (List.mem_cons_of_mem a hx))]

theorem addEdge_get? (g : List Block) (p c : Nat) (t : BlockEdgeType)
    (hp : p < g.length) (hc : c < g.length) (q : Nat) :
    (addEdge g p c t).get? q = (g.get? q).map (edgeUpd p c t q) := by
  unfold addEdge
  rw [if_pos ⟨hp, hc⟩]
  by_cases hqc : q = c
  · subst hqc
    rw [updateAt_get?_eq]
    by_cases hqp : q = p
    · subst hqp
      rw [updateAt_get?_eq, Option.map_map]
      cases g.get? q <;> simp [edgeUpd]
    · rw [updateAt_get?_ne p q _ _ hqp]
      cases g.get? q <;> simp [edgeUpd, hqp]
  · rw [updateAt_get?_ne c q _ _ hqc]
    by_cases hqp : q = p
    · subst hqp
      rw [updateAt_get?_eq]
      cases g.get? q <;> simp [edgeUpd, hqc]
    · rw [updateAt_get?_ne p q _ _ hqp]
      cases g.get? q <;> simp [edgeUpd, hqp, hqc]

theorem addEdge_length (g : List Block) (p c : Nat) (t : BlockEdgeType) :
    (addEdge g p c t).length = g.length := by
  unfold addEdge
  split
  · rw [updateAt_length, updateAt_length]
  · rfl

theorem edgeUpd_children (p c : Nat) (t : BlockEdgeType) (q : Nat) (b : Block) :
    (edgeUpd p c t q b).children =
      if q = p then b.children ++ [c] else b.children := by
  by_cases hqp : q = p <;> by_cases hqc : q = c
  · simp [edgeUpd, appendChild, appendParent, hqp, hqc, hqp.symm.trans hqc]
  · have hpc : ¬(p = c) := fun h => hqc (hqp.trans h)
    simp [edgeUpd, appendChild, appendParent, hqp, hqc, hpc]
  · have hcp : ¬(c = p) := fun h => hqp (hqc.trans h)
    simp [edgeUpd, appendChild, appendParent, hqp, hqc, hcp]
  · simp [edgeUpd, appendChild, appendParent, hqp, hqc]

theorem edgeUpd_childrenTypes (p c : Nat) (t : BlockEdgeType) (q : Nat) (b : Block) :
    (edgeUpd p c t q b).childrenTypes =
      if q = p then b.childrenTypes ++ [t] else b.childrenTypes := by
  by_cases hqp : q = p <;> by_cases hqc : q = c
  · simp [edgeUpd, appendChild, appendParent, hqp, hqc, hqp.symm.trans hqc]
  · have hpc : ¬(p = c) := fun h => hqc (hqp.trans h)
    simp [edgeUpd, appendChild, appendParent, hqp, hqc, hpc]
  · have hcp : ¬(c = p) := fun h => hqp (hqc.trans h)
    simp [edgeUpd, appendChild, appendParent, hqp, hqc, hcp]
  · simp [edgeUpd, appendChild, appendParent, hqp, hqc]

theorem edgeUpd_parents (p c : Nat) (t : BlockEdgeType) (q : Nat) (b : Block) :
    (edgeUpd p c t q b).parents =
      if q = c then b.parents ++ [p] else b.parents := by
  by_cases hqp : q = p <;> by_cases hqc : q = c
  · simp [edgeUpd, appendChild, appendParent, hqp, hqc, hqp.symm.trans hqc]
  · have hpc : ¬(p = c) := fun h => hqc (hqp.trans h)
    simp [edgeUpd, appendChild, appendParent, hqp, hqc, hpc]
  · have hcp : ¬(c = p) := fun h => hqp (hqc.trans h)
    simp [edgeUpd, appendChild, appendParent, hqp, hqc, hcp]
  · simp [edgeUpd, appendChild, appendParent, hqp, hqc]

theorem wfB_addEdge (g : List Block) (p c : Nat) (t : BlockEdgeType)
    (h : wfB g = true) : wfB (addEdge g p c t) = true := by
  by_cases hpc : p < g.length ∧ c < g.length
  case neg =>
    unfold addEdge
    rw [if_neg hpc]
    exact h
  case pos =>
    obtain ⟨hp, hc⟩ := hpc
    rw [wfB, List.all_eq_true]
    intro q hq
    rw [List.mem_range, addEdge_length] at hq
    have hold : wfBlockAt g q = true := by
      rw [wfB, List.all_eq_true] at h
      exact h q (List.mem_range.2 hq)
    cases hgq : g.get? q with
    | none =>
      have := List.get?_eq_none.1 hgq
      omega
    | some b =>
      rw [wfBlockAt, hgq] at hold
      simp only [Option.all_some, Bool.and_eq_true, decide_eq_true_eq,
                 List.all_eq_true] at hold
      obtain ⟨hlenb, hchld⟩ := hold
      rw [wfBlockAt, addEdge_get? g p c t hp hc q, hgq]
      simp only [Option.map_some', Option.all_some, Bool.and_eq_true,
                 decide_eq_true_eq, List.all_eq_true]
      constructor
      · rw [edgeUpd_children, edgeUpd_childrenTypes]
        by_cases hqp : q = p <;> simp [hqp, hlenb]
      · intro ch hch
        rw [edgeUpd_children] at hch
        have hchcase : ch ∈ b.children ∨ (q = p ∧ ch = c) := by
          by_cases hqp : q = p
          · rw [if_pos hqp] at hch
            rcases List.mem_append.1 hch with h' | h'
            · exact Or.inl h'
            · exact Or.inr ⟨hqp, List.mem_singleton.1 h'⟩
          · rw [if_neg hqp] at hch
            exact Or.inl hch
        rcases hchcase with hmem | ⟨hqp, hchc⟩
        · have := hchld ch hmem
          cases hgch : g.get? ch with
          | none => rw [hgch, Option.any_none] at this; cases this
          | some cb =>
            rw [hgch] at this
            simp only [Option.any_some, decide_eq_true_eq] at this
            rw [addEdge_get? g p c t hp hc ch, hgch]
            simp only [Option.map_some', Option.any_some, decide_eq_true_eq]
            rw [edgeUpd_parents]
            by_cases hchc : ch = c
            · rw [if_pos hchc]
              exact List.mem_append_left _ this
            · rw [if_neg hchc]
              exact this
        · have hcch : c = ch := hchc.symm
          subst hcch
          cases hgc : g.get? c with
          | none =>
            have := List.get?_eq_none.1 hgc
            omega
          | some cb =>
            rw [addEdge_get? g p c t hp hc c, hgc]
            simp only [Option.map_some', Option.any_some, decide_eq_true_eq]
            rw [edgeUpd_parents, if_pos rfl]
            subst hqp
            exact List.mem_append_right _ (List.mem_singleton.2 rfl)

theorem wfB_applyEdges (es : List (Nat × Nat × BlockEdgeType)) :
    ∀ g : List Block, wfB g = true → wfB (applyEdges g es) = true := by
  induction es with
  | nil => intro g h; exact h
  | cons e rest ih =>
    intro g h
    exact ih (addEdge g e.1 e.2.1 e.2.2) (wfB_addEdge g e.1 e.2.1 e.2.2 h)

theorem wfB_splitBlocks (instrs : List Instruction) :
    wfB (splitBlocks instrs) = true := by
  rw [wfB, List.all_eq_true]
  intro q hq
  rw [List.mem_range] at hq
  cases hgq : (splitBlocks instrs).get? q with
  | none =>
    have := List.get?_eq_none.1 hgq
    omega
  | some b =>
    have hb : b ∈ splitBlocks instrs := List.get?_mem hgq
    have hch : b.children = [] := by
      rcases List.mem_map.1 hb with ⟨s, _, rfl⟩
      rfl
    have hct : b.childrenTypes = [] := by
      rcases List.mem_map.1 hb with ⟨s, _, rfl⟩
      rfl
    rw [wfBlockAt, hgq]
    simp [hch, hct]

theorem wfB_constructBlocks (instrs : List Instruction) :
    wfB (constructBlocks instrs) = true := by
  unfold constructBlocks linkIntra
  exact wfB_applyEdges _ _ (wfB_applyEdges _ _ (wfB_splitBlocks instrs))

theorem mapIdxFrom_length {α β : Type _} (f : Nat → α → β) :
    ∀ (i : Nat) (l : List α), (mapIdxFrom f i l).length = l.length := by
  intro i l
  induction l generalizing i with
  | nil => rfl
  | cons a rest ih => simp [mapIdxFrom, ih]

theorem mapIdxFrom_get? {α β : Type _} (f : Nat → α → β) :
    ∀ (i : Nat) (l : List α) (n : Nat),
      (mapIdxFrom f i l).get? n = (l.get? n).map (f (i + n)) := by
  intro i l
  induction l generalizing i with
  | nil => intro n; cases n <;> rfl
  | cons a rest ih =>
    intro n
    cases n with
    | zero => rfl
    | succ n =>
      show (mapIdxFrom f (i + 1) rest).get? n = (rest.get? n).map (f (i + (n + 1)))
      rw [ih (i + 1) n, show i + 1 + n = i + (n + 1) from by omega]

theorem mapIdxFrom_comp {α : Type _} (f h : Nat → α → α) :
    ∀ (i : Nat) (l : List α),
      mapIdxFrom f i (mapIdxFrom h i l) = mapIdxFrom (fun n a => f n (h n a)) i l := by
  intro i l
  induction l generalizing i with
  | nil => rfl
  | cons a rest ih => simp [mapIdxFrom, ih]

theorem mapIdxFrom_congr {α β : Type _} {f h : Nat → α → β}
    (hfh : ∀ n a, f n a = h n a) :
    ∀ (i : Nat) (l : List α), mapIdxFrom f i l = mapIdxFrom h i l := by
  intro i l
  induction l generalizing i with
  | nil => rfl
  | cons a rest ih => simp [mapIdxFrom, hfh, ih]

theorem map_mapIdxFrom {α γ : Type _} (f : Nat → α → α) (proj : α → γ)
    (hproj : ∀ n a, proj (f n a) = proj a) :
    ∀ (i : Nat) (l : List α), (mapIdxFrom f i l).map proj = l.map proj := by
  intro i l
  induction l generalizing i with
  | nil => rfl
  | cons a rest ih => simp [mapIdxFrom, hproj, ih]

theorem retagBlock_children (g : List Block) (p : Nat) (b : Block) :
    (retagBlock g p b).children = b.children := by
  unfold retagBlock
  split <;> rfl

theorem retagBlock_parents (g : List Block) (p : Nat) (b : Block) :
    (retagBlock g p b).parents = b.parents := by
  unfold retagBlock
  split <;> rfl

theorem retagBlock_address (g : List Block) (p : Nat) (b : Block) :
    (retagBlock g p b).address = b.address := by
  unfold retagBlock
  split <;> rfl

theorem retagBlock_instructions (g : List Block) (p : Nat) (b : Block) :
    (retagBlock g p b).instructions = b.instructions := by
  unfold retagBlock
  split <;> rfl

theorem retagTypes_length (d : Nat → Bool) (ts : List BlockEdgeType) :
    (retagTypes d ts).length = ts.length :=
  mapIdxFrom_length _ 0 ts

theorem retagBlock_childrenTypes_length (g : List Block) (p : Nat) (b : Block) :
    (retagBlock g p b).childrenTypes.length = b.childrenTypes.length := by
  unfold retagBlock
  split
  · exact retagTypes_length _ _
  · rfl

theorem findDeadBlockEdges_get? (g : List Block) (q : Nat) :
    (findDeadBlockEdges g).get? q = (g.get? q).map (retagBlock g q) := by
  unfold findDeadBlockEdges
  rw [mapIdxFrom_get?, Nat.zero_add]

theorem skeleton_findDeadBlockEdges (g : List Block) :
    skeleton (findDeadBlockEdges g) = skeleton g := by
  unfold skeleton findDeadBlockEdges
  exact map_mapIdxFrom (retagBlock g) _
    (fun n a => by rw [retagBlock_children, retagBlock_parents]) 0 g

theorem deadAt_findDeadBlockEdges (g : List Block) (p i : Nat) :
    deadAt (findDeadBlockEdges g) p i = deadAt g p i := by
  unfold deadAt
  rw [skeleton_findDeadBlockEdges]

theorem isCondPair_retagTypes (d : Nat → Bool) (t1 t2 : BlockEdgeType) :
    (d 0 = false ∧ d 1 = false ∧ retagTypes d [t1, t2] = [t1, t2]) ∨
      isCondPair (retagTypes d [t1, t2]) = false := by
  have hts : retagTypes d [t1, t2] =
      [if d 0 then BlockEdgeType.kBlockEdgeTypeDead else t1,
       if d 1 then BlockEdgeType.kBlockEdgeTypeDead else t2] := rfl
  cases hd0 : d 0 with
  | true =>
    refine Or.inr ?_
    rw [hts, hd0]
    cases hd1 : d 1 <;> simp [isCondPair]
  | false =>
    cases hd1 : d 1 with
    | true =>
      refine Or.inr ?_
      rw [hts, hd0, hd1]
      simp [isCondPair]
    | false =>
      refine Or.inl ⟨rfl, rfl, ?_⟩
      rw [hts, hd0, hd1]
      simp

theorem retagTypes_congr (d d' : Nat → Bool) (h : ∀ i, d i = d' i)
    (ts : List BlockEdgeType) : retagTypes d ts = retagTypes d' ts :=
  mapIdxFrom_congr (fun n a => by rw [h n]) 0 ts

theorem isCondPair_shape (ts : List BlockEdgeType) (h : isCondPair ts = true) :
    ∃ t1 t2, ts = [t1, t2] := by
  match ts with
  | [] => simp [isCondPair] at h
  | [t] => simp [isCondPair] at h
  | [t1, t2] => exact ⟨t1, t2, rfl⟩
  | t1 :: t2 :: t3 :: r => simp [isCondPair] at h

theorem retagBlock_again (g g' : List Block) (p : Nat) (b : Block)
    (hdead : ∀ i, deadAt g' p i = deadAt g p i) :
    retagBlock g' p (retagBlock g p b) = retagBlock g p b := by
  by_cases hpair : isCondPair b.childrenTypes = true
  case neg =>
    have hb : retagBlock g p b = b := by rw [retagBlock, if_neg hpair]
    rw [hb, retagBlock, if_neg hpair]
  case pos =>
    have hX : retagBlock g p b =
        { b with childrenTypes := retagTypes (deadAt g p) b.childrenTypes } := by
      rw [retagBlock, if_pos hpair]
    obtain ⟨t1, t2, hts⟩ := isCondPair_shape b.childrenTypes hpair
    rcases isCondPair_retagTypes (deadAt g p) t1 t2 with ⟨hd0, hd1, heq⟩ | hnot
    · have heq' : retagTypes (deadAt g p) b.childrenTypes = b.childrenTypes := by
        rw [hts]
        exact heq
      have hXb : retagBlock g p b = b := by rw [hX, heq']
      rw [hXb, retagBlock, if_pos hpair,
          retagTypes_congr (deadAt g' p) (deadAt g p) hdead, heq']
    · have hnot' : isCondPair (retagTypes (deadAt g p) b.childrenTypes) = false := by
        rw [hts]
        exact hnot
      rw [hX]
      simp only [retagBlock]
      simp [hnot']

/-- C4: `findDeadBlockEdges` is idempotent — running it twice over a block
set produces exactly the block set (and in particular the edge-type tags) of
running it once, because the dead-edge criterion consults only the graph
skeleton, which the pass never changes, and retagging an already-dead edge
changes nothing. -/
theorem findDeadBlockEdges_idempotent (g : List Block) :
    findDeadBlockEdges (findDeadBlockEdges g) = findDeadBlockEdges g := by
  unfold findDeadBlockEdges
  rw [mapIdxFrom_comp]
  exact mapIdxFrom_congr (fun n a => by
    have hd : ∀ i, deadAt (mapIdxFrom (retagBlock g) 0 g) n i = deadAt g n i :=
      fun i => deadAt_findDeadBlockEdges g n i
    exact retagBlock_again g (mapIdxFrom (retagBlock g) 0 g) n a hd) 0 g

theorem retagTypes_get? (d : Nat → Bool) (ts : List BlockEdgeType) (i : Nat) :
    (retagTypes d ts).get? i =
      (ts.get? i).map (fun t => if d i then BlockEdgeType.kBlockEdgeTypeDead else t) := by
  unfold retagTypes
  rw [mapIdxFrom_get?, Nat.zero_add]

/-- C8: `findDeadBlockEdges` only changes edge-type tags, in place — the
number of blocks, and every block's address, instruction list, parents list
and children list are unchanged, the number of edges (`childrenTypes`
entries) is unchanged, and every tag is either kept or turned into dead (no
edge is removed or added). -/
theorem findDeadBlockEdges_frame (g : List Block) :
    (findDeadBlockEdges g).length = g.length ∧
    ∀ q b b', g.get? q = some b → (findDeadBlockEdges g).get? q = some b' →
      b'.address = b.address ∧ b'.instructions = b.instructions ∧
      b'.parents = b.parents ∧ b'.children = b.children ∧
      b'.childrenTypes.length = b.childrenTypes.length ∧
      (∀ i t t', b.childrenTypes.get? i = some t →
        b'.childrenTypes.get? i = some t' →
        t' = t ∨ t' = BlockEdgeType.kBlockEdgeTypeDead) := by
  refine ⟨mapIdxFrom_length _ 0 g, ?_⟩
  intro q b b' hq hq'
  rw [findDeadBlockEdges_get?, hq, Option.map_some'] at hq'
  have hb' : b' = retagBlock g q b := Option.some.inj hq'.symm
  subst hb'
  refine ⟨retagBlock_address g q b, retagBlock_instructions g q b,
          retagBlock_parents g q b, retagBlock_children g q b,
          retagBlock_childrenTypes_length g q b, ?_⟩
  intro i t t' ht ht'
  unfold retagBlock at ht'
  split at ht'
  · rw [retagTypes_get?, ht, Option.map_some'] at ht'
    have := Option.some.inj ht'.symm
    subst this
    cases hd : deadAt g q i with
    | true => simp [hd]
    | false => simp [hd]
  · rw [ht] at ht'
    exact Or.inl (Option.some.inj ht'.symm)

/-- C8 witness: on the concrete graph, the block behind handle 0 keeps its
children, parents, instructions and edge count across the dead-edge pass. -/
theorem findDeadBlockEdges_frame_witness :
    ∃ b, wGraphFrame.get? 0 = some b ∧
      (findDeadBlockEdges wGraphFrame).get? 0 = some (retagBlock wGraphFrame 0 b) ∧
      (retagBlock wGraphFrame 0 b).children = b.children ∧
      (retagBlock wGraphFrame 0 b).parents = b.parents ∧
      (retagBlock wGraphFrame 0 b).childrenTypes.length = b.childrenTypes.length := by
  refine ⟨wGraphFrame.get ⟨0, by decide⟩, rfl, ?_, ?_⟩
  · rw [findDeadBlockEdges_get?]
    rfl
  · have h := (findDeadBlockEdges_frame wGraphFrame).2 0
      (wGraphFrame.get ⟨0, by decide⟩)
      (retagBlock wGraphFrame 0 (wGraphFrame.get ⟨0, by decide⟩)) rfl
      (by rw [findDeadBlockEdges_get?]; rfl)
    exact ⟨h.2.2.2.1, h.2.2.1, h.2.2.2.2.1⟩

/-- C4 witness: the idempotence theorem applied to the concrete three-block
graph with a conditional pair. -/
theorem findDeadBlockEdges_idempotent_witness :
    findDeadBlockEdges (findDeadBlockEdges wGraphFrame) =
      findDeadBlockEdges wGraphFrame :=
  findDeadBlockEdges_idempotent wGraphFrame

theorem reachBFSAux_visited_subset (succs : Nat → List Nat) :
    ∀ (fuel : Nat) (frontier visited : List Nat) (x : Nat),
      x ∈ visited → x ∈ reachBFSAux succs fuel frontier visited := by
  intro fuel
  induction fuel with
  | zero => intro frontier visited x hx; exact hx
  | succ fuel ih =>
    intro frontier visited x hx
    cases frontier with
    | nil => exact hx
    | cons n rest =>
      unfold reachBFSAux
      split
      · exact ih rest visited x hx
      · exact ih (succs n ++ rest) (n :: visited) x (List.mem_cons_of_mem n hx)

theorem reachBFSAux_head_mem (succs : Nat → List Nat) (fuel : Nat)
    (n : Nat) (rest visited : List Nat) :
    n ∈ reachBFSAux succs (fuel + 1) (n :: rest) visited := by
  unfold reachBFSAux
  split
  · rename_i hmem
    rw [decide_eq_true_eq] at hmem
    exact reachBFSAux_visited_subset succs fuel rest visited n hmem
  · exact reachBFSAux_visited_subset succs fuel (succs n ++ rest) (n :: visited) n
      (List.mem_cons_self n visited)

theorem regionOf_self_mem (g : List Block) (e : Nat) : e ∈ regionOf g e := by
  unfold regionOf bfsFuel
  exact reachBFSAux_head_mem (intraSuccs g) _ e [] []

theorem applyEdges_length (es : List (Nat × Nat × BlockEdgeType)) :
    ∀ g : List Block, (applyEdges g es).length = g.length := by
  induction es with
  | nil => intro g; rfl
  | cons e rest ih =>
    intro g
    show (applyEdges (addEdge g e.1 e.2.1 e.2.2) rest).length = g.length
    rw [ih, addEdge_length]

theorem constructBlocks_length (instrs : List Instruction) :
    (constructBlocks instrs).length = (splitBlocks instrs).length := by
  unfold constructBlocks linkIntra
  rw [applyEdges_length, applyEdges_length]

theorem splitBlocks_nil_iff (instrs : List Instruction) :
    splitBlocks instrs = [] ↔ instrs = [] := by
  constructor
  · intro h
    cases instrs with
    | nil => rfl
    | cons i rest =>
      unfold splitBlocks flagBoundaries at h
      rcases group_head (flagAfter (branchTargets (i :: rest)) i rest) i true with
        ⟨s, gs, hg⟩
      rw [hg] at h
      cases h
  · intro h
    subst h
    rfl

theorem assignSubRoutines_get? (g : List Block) (subs : List SubRoutine) (q : Nat) :
    (assignSubRoutines g subs).get? q =
      (g.get? q).map (fun b => { b with subRoutine := subIndexOf subs q }) := by
  unfold assignSubRoutines
  rw [mapIdxFrom_get?, Nat.zero_add]

/-- The first block of the facade holds the first instruction: the leading
instruction of the stream opens the first group, and neither edge linking nor
dead-edge detection nor subroutine assignment changes any instruction list. -/
theorem loadNCS_first_instruction (i0 : Instruction) (instrs : List Instruction)
    (h : instrs.head? = some i0) :
    ∃ b, (loadNCS instrs).blocks.get? 0 = some b ∧ i0 ∈ b.instructions := by
  cases instrs with
  | nil => cases h
  | cons i rest =>
    have hi0 : i0 = i := (Option.some.inj h).symm
    subst hi0
    rcases group_head (flagAfter (branchTargets (i0 :: rest)) i0 rest) i0 true with
      ⟨s, gs, hg⟩
    have hsplit : (splitBlocks (i0 :: rest)).get? 0 = some (mkBlock (i0 :: s)) := by
      unfold splitBlocks flagBoundaries
      rw [hg]
      rfl
    -- carry the instruction list through the remaining phases
    have hmapc := map_instructions_constructBlocks (i0 :: rest)
    have hc0 : ((constructBlocks (i0 :: rest)).map Block.instructions).get? 0 =
        some (i0 :: s) := by
      rw [hmapc, List.get?_map, hsplit]
      rfl
    rw [List.get?_map] at hc0
    cases hcb : (constructBlocks (i0 :: rest)).get? 0 with
    | none => rw [hcb] at hc0; cases hc0
    | some b0 =>
      rw [hcb, Option.map_some'] at hc0
      have hb0i : b0.instructions = i0 :: s := Option.some.inj hc0
      have hg1 : (findDeadBlockEdges (constructBlocks (i0 :: rest))).get? 0 =
          some (retagBlock (constructBlocks (i0 :: rest)) 0 b0) := by
        rw [findDeadBlockEdges_get?, hcb, Option.map_some']
      refine ⟨{ retagBlock (constructBlocks (i0 :: rest)) 0 b0 with
                subRoutine := subIndexOf (identifySubRoutines
                  (findDeadBlockEdges (constructBlocks (i0 :: rest)))) 0 }, ?_, ?_⟩
      · show (assignSubRoutines (findDeadBlockEdges (constructBlocks (i0 :: rest)))
            (identifySubRoutines (findDeadBlockEdges (constructBlocks (i0 :: rest))))).get? 0 =
            some _
        rw [assignSubRoutines_get?, hg1, Option.map_some']
      · show i0 ∈ (retagBlock (constructBlocks (i0 :: rest)) 0 b0).instructions
        rw [retagBlock_instructions, hb0i]
        exact List.mem_cons_self i0 s

theorem loadNCS_subRoutines (instrs : List Instruction) :
    (loadNCS instrs).subRoutines =
      identifySubRoutines (findDeadBlockEdges (constructBlocks instrs)) := rfl

theorem mkSubRoutine_blocks (g : List Block) (st : SubRoutineType) (e : Nat) :
    (mkSubRoutine g st e).blocks = regionOf g e := rfl

theorem identifySubRoutines_start (g : List Block) (hg : g ≠ []) :
    ∃ L, identifySubRoutines g =
      mkSubRoutine g SubRoutineType.kSubRoutineTypeStart 0 :: L := by
  cases g with
  | nil => exact absurd rfl hg
  | cons b tl => exact ⟨_, rfl⟩

theorem findDeadBlockEdges_length (g : List Block) :
    (findDeadBlockEdges g).length = g.length :=
  mapIdxFrom_length _ 0 g

theorem loadNCS_subRoutines_ne_nil (i : Instruction) (rest : List Instruction) :
    (loadNCS (i :: rest)).subRoutines ≠ [] := by
  have hlen : (findDeadBlockEdges (constructBlocks (i :: rest))).length =
      (splitBlocks (i :: rest)).length := by
    rw [findDeadBlockEdges_length, constructBlocks_length]
  have hpos : 0 < (splitBlocks (i :: rest)).length := by
    rw [List.length_pos]
    intro hnil
    exact List.noConfusion ((splitBlocks_nil_iff (i :: rest)).1 hnil)
  have hg1ne : findDeadBlockEdges (constructBlocks (i :: rest)) ≠ [] := by
    rw [← List.length_pos, hlen]
    exact hpos
  obtain ⟨L, hL⟩ := identifySubRoutines_start _ hg1ne
  rw [loadNCS_subRoutines, hL]
  intro h
  cases h

set_option maxHeartbeats 1000000 in
/-- C9: `getStartSubRoutine` on a loaded script is null exactly when the
script's subroutine sequence is empty; whenever at least one subroutine
exists, the start subroutine is present and one of its blocks holds the very
first instruction of the script. -/
theorem getStartSubRoutine_spec (instrs : List Instruction) :
    ((loadNCS instrs).getStartSubRoutine = none ↔
      (loadNCS instrs).subRoutines = []) ∧
    ((loadNCS instrs).subRoutines ≠ [] →
      ∃ s i0, (loadNCS instrs).getStartSubRoutine = some s ∧
        instrs.head? = some i0 ∧
        ∃ b, 0 ∈ s.blocks ∧ (loadNCS instrs).blocks.get? 0 = some b ∧
          i0 ∈ b.instructions) := by
  cases instrs with
  | nil =>
    exact ⟨⟨fun _ => rfl, fun _ => rfl⟩, fun hne => absurd rfl hne⟩
  | cons i rest =>
    have hlen : (findDeadBlockEdges (constructBlocks (i :: rest))).length =
        (splitBlocks (i :: rest)).length := by
      rw [findDeadBlockEdges_length, constructBlocks_length]
    have hpos : 0 < (splitBlocks (i :: rest)).length := by
      rw [List.length_pos]
      intro hnil
      exact List.noConfusion ((splitBlocks_nil_iff (i :: rest)).1 hnil)
    have hg1ne : findDeadBlockEdges (constructBlocks (i :: rest)) ≠ [] := by
      rw [← List.length_pos, hlen]
      exact hpos
    obtain ⟨L, hL⟩ := identifySubRoutines_start _ hg1ne
    have hsubs : (loadNCS (i :: rest)).subRoutines =
        mkSubRoutine (findDeadBlockEdges (constructBlocks (i :: rest)))
          SubRoutineType.kSubRoutineTypeStart 0 :: L := by
      rw [loadNCS_subRoutines, hL]
    have hfind : (loadNCS (i :: rest)).getStartSubRoutine =
        some (mkSubRoutine (findDeadBlockEdges (constructBlocks (i :: rest)))
          SubRoutineType.kSubRoutineTypeStart 0) := by
      show ((loadNCS (i :: rest)).subRoutines).find? _ = _
      rw [hsubs]
      exact List.find?_cons_of_pos _ (by rfl)
    constructor
    · constructor
      · intro hnone
        rw [hfind] at hnone
        cases hnone
      · intro hsr
        rw [hsubs] at hsr
        cases hsr
    · intro _
      obtain ⟨b, hb, hbi⟩ := loadNCS_first_instruction i (i :: rest) rfl
      refine ⟨mkSubRoutine (findDeadBlockEdges (constructBlocks (i :: rest)))
        SubRoutineType.kSubRoutineTypeStart 0, i, hfind, rfl, b, ?_, hb, hbi⟩
      rw [mkSubRoutine_blocks]
      exact regionOf_self_mem _ 0

/-- C9 witness: the concrete two-instruction script has a non-empty
subroutine sequence, so its start subroutine is present and holds the first
instruction. -/
theorem getStartSubRoutine_spec_witness :
    (loadNCS wInstrsStart).subRoutines ≠ [] ∧
    (∃ s i0, (loadNCS wInstrsStart).getStartSubRoutine = some s ∧
      wInstrsStart.head? = some i0 ∧
      ∃ b, 0 ∈ s.blocks ∧ (loadNCS wInstrsStart).blocks.get? 0 = some b ∧
        i0 ∈ b.instructions) :=
  ⟨loadNCS_subRoutines_ne_nil _ _,
   (getStartSubRoutine_spec wInstrsStart).2 (loadNCS_subRoutines_ne_nil _ _)⟩

theorem stackStateUpd_querySkel (f : NCSFile) (bound i : Nat) (b : Block) :
    querySkel (stackStateUpd f bound i b) = querySkel b := by
  unfold stackStateUpd
  split <;> rfl

theorem stackStateUpd_edgeSkel (f : NCSFile) (bound i : Nat) (b : Block) :
    edgeSkel (stackStateUpd f bound i b) = edgeSkel b := by
  unfold stackStateUpd
  split <;> rfl

theorem wfB_congr (g g' : List Block) (hlen : g'.length = g.length)
    (hsk : ∀ q, (g'.get? q).map edgeSkel = (g.get? q).map edgeSkel) :
    wfB g' = wfB g := by
  unfold wfB
  rw [hlen]
  apply all_congr_bool
  intro q _
  unfold wfBlockAt
  have h1 := hsk q
  cases hq1 : g'.get? q with
  | none =>
    rw [hq1] at h1
    cases hq2 : g.get? q with
    | none => rfl
    | some b => rw [hq2] at h1; exact Option.noConfusion h1
  | some b' =>
    rw [hq1] at h1
    cases hq2 : g.get? q with
    | none => rw [hq2] at h1; exact Option.noConfusion h1
    | some b =>
      rw [hq2] at h1
      simp only [Option.map_some'] at h1
      have hes : edgeSkel b' = edgeSkel b := Option.some.inj h1
      have h12 := Prod.ext_iff.1 hes
      have hch : b'.children = b.children := h12.1
      have h34 := Prod.ext_iff.1 h12.2
      have hlt : b'.childrenTypes.length = b.childrenTypes.length := h34.2
      simp only [Option.all_some]
      rw [hch, hlt]
      congr 1
      apply all_congr_bool
      intro ch _
      have h2 := hsk ch
      cases hc1 : g'.get? ch with
      | none =>
        rw [hc1] at h2
        cases hc2 : g.get? ch with
        | none => rfl
        | some cb => rw [hc2] at h2; exact Option.noConfusion h2
      | some cb' =>
        rw [hc1] at h2
        cases hc2 : g.get? ch with
        | none => rw [hc2] at h2; exact Option.noConfusion h2
        | some cb =>
          rw [hc2] at h2
          simp only [Option.map_some'] at h2
          have hesc := Option.some.inj h2
          have hparc : cb'.parents = cb.parents := (Prod.ext_iff.1 (Prod.ext_iff.1 hesc).2).1
          simp only [Option.any_some]
          rw [hparc]

theorem wfB_findDeadBlockEdges (g : List Block) (h : wfB g = true) :
    wfB (findDeadBlockEdges g) = true := by
  have hc := wfB_congr g (findDeadBlockEdges g) (findDeadBlockEdges_length g) ?_
  · rw [hc]; exact h
  · intro q
    rw [findDeadBlockEdges_get?]
    cases g.get? q with
    | none => rfl
    | some b =>
      simp only [Option.map_some']
      unfold edgeSkel
      rw [retagBlock_children, retagBlock_parents, retagBlock_childrenTypes_length]

theorem wfB_assignSubRoutines (g : List Block) (subs : List SubRoutine)
    (h : wfB g = true) : wfB (assignSubRoutines g subs) = true := by
  have hc := wfB_congr g (assignSubRoutines g subs)
    (by unfold assignSubRoutines; exact mapIdxFrom_length _ 0 g) ?_
  · rw [hc]; exact h
  · intro q
    rw [assignSubRoutines_get?]
    cases g.get? q with
    | none => rfl
    | some b => rfl

theorem analyzeStack_blocks_get? (f : NCSFile) (bound q : Nat) :
    (analyzeStack f bound).blocks.get? q =
      (f.blocks.get? q).map (stackStateUpd f bound q) := by
  show (mapIdxFrom (stackStateUpd f bound) 0 f.blocks).get? q = _
  rw [mapIdxFrom_get?, Nat.zero_add]

theorem wfB_analyzeStack (f : NCSFile) (bound : Nat) (h : wfB f.blocks = true) :
    wfB (analyzeStack f bound).blocks = true := by
  have hc := wfB_congr f.blocks (analyzeStack f bound).blocks
    (by show (mapIdxFrom (stackStateUpd f bound) 0 f.blocks).length = _
        exact mapIdxFrom_length _ 0 f.blocks) ?_
  · rw [hc]; exact h
  · intro q
    rw [analyzeStack_blocks_get?]
    cases f.blocks.get? q with
    | none => rfl
    | some b =>
      simp only [Option.map_some']
      rw [stackStateUpd_edgeSkel]

/-- C5: the stack analyzer's worklist pass is total and degrades gracefully —
an empty worklist is a fixed point and always yields a result; on every
facade and bound, `analyzeStack` leaves the queryable graph (addresses,
instructions, parents, children, edge types), the subroutine sequence and
the instruction sequence untouched, preserves the symmetric edge invariant,
and its stack-analysis-succeeded flag is true exactly when the worklist of
every subroutine emptied within the bound (so an exceeded bound abandons
analysis with the flag left false, not a crash). -/
theorem analyzeStack_spec (f : NCSFile) (bound : Nat) :
    (∀ shapes, worklistLoop f.blocks bound shapes [] = some shapes) ∧
    ((analyzeStack f bound).blocks.map querySkel = f.blocks.map querySkel) ∧
    ((analyzeStack f bound).subRoutines = f.subRoutines) ∧
    ((analyzeStack f bound).instructions = f.instructions) ∧
    (wfB f.blocks = true → wfB (analyzeStack f bound).blocks = true) ∧
    ((analyzeStack f bound).hasStackAnalysis = true ↔
      ∀ s ∈ f.subRoutines, (runSub f.blocks bound s).isSome = true) := by
  refine ⟨?_, ?_, rfl, rfl, ?_, ?_⟩
  · intro shapes
    cases bound <;> rfl
  · show (mapIdxFrom (stackStateUpd f bound) 0 f.blocks).map querySkel = _
    exact map_mapIdxFrom _ _ (stackStateUpd_querySkel f bound) 0 f.blocks
  · exact wfB_analyzeStack f bound
  · show (f.subRoutines.all fun s => (runSub f.blocks bound s).isSome) = true ↔ _
    rw [List.all_eq_true]

/-- C5 witness: on the concrete facade with iteration bound 0 the analysis is
abandoned — the graph stays well-formed and the flag is false. -/
theorem analyzeStack_spec_witness :
    wfB wFacade.blocks = true ∧
    wfB (analyzeStack wFacade 0).blocks = true ∧
    (analyzeStack wFacade 0).hasStackAnalysis = false := by
  refine ⟨by decide, (analyzeStack_spec wFacade 0).2.2.2.2.1 (by decide), ?_⟩
  have hiff := (analyzeStack_spec wFacade 0).2.2.2.2.2
  by_cases hfl : (analyzeStack wFacade 0).hasStackAnalysis = true
  · exfalso
    have hs := hiff.1 hfl wStartSub (List.mem_singleton.2 rfl)
    exact Bool.noConfusion hs
  · simpa using hfl

theorem wfB_iff (g : List Block) :
    wfB g = true ↔
      ∀ q b, g.get? q = some b →
        b.children.length = b.childrenTypes.length ∧
        ∀ c, c ∈ b.children → ∃ cb, g.get? c = some cb ∧ q ∈ cb.parents := by
  constructor
  · intro h q b hq
    have hqlt : q < g.length := (List.get?_eq_some.1 hq).1
    have hw : wfBlockAt g q = true := (List.all_eq_true.1 h) q (List.mem_range.2 hqlt)
    rw [wfBlockAt, hq] at hw
    simp only [Option.all_some, Bool.and_eq_true, decide_eq_true_eq,
               List.all_eq_true] at hw
    obtain ⟨hlen, hall⟩ := hw
    refine ⟨hlen, fun c hc => ?_⟩
    have hcc := hall c hc
    cases hgc : g.get? c with
    | none => rw [hgc, Option.any_none] at hcc; cases hcc
    | some cb =>
      rw [hgc] at hcc
      simp only [Option.any_some, decide_eq_true_eq] at hcc
      exact ⟨cb, rfl, hcc⟩
  · intro h
    rw [wfB, List.all_eq_true]
    intro q hq
    rw [List.mem_range] at hq
    obtain ⟨b, hb⟩ : ∃ b, g.get? q = some b := ⟨g.get ⟨q, hq⟩, List.get?_eq_get hq⟩
    obtain ⟨hlen, hall⟩ := h q b hb
    rw [wfBlockAt, hb]
    simp only [Option.all_some, Bool.and_eq_true, decide_eq_true_eq,
               List.all_eq_true]
    refine ⟨hlen, fun c hc => ?_⟩
    obtain ⟨cb, hcb, hmem⟩ := hall c hc
    rw [hcb]
    simp only [Option.any_some, decide_eq_true_eq]
    exact hmem

/-- C3: the symmetric edge-bookkeeping invariant — `wfB`, which demands that
every block pairs its children index-for-index with edge types (equal
lengths) and that for every edge (P, C) the child handle is valid and P
occurs in C's parents — holds of every constructed block graph and is
preserved by dead-edge detection, subroutine identification (the
`subRoutine` back-reference assignment) and stack analysis. -/
theorem block_graph_invariant :
    (∀ g : List Block, wfB g = true ↔
      ∀ q b, g.get? q = some b →
        b.children.length = b.childrenTypes.length ∧
        ∀ c, c ∈ b.children → ∃ cb, g.get? c = some cb ∧ q ∈ cb.parents) ∧
    (∀ instrs : List Instruction, wfB (constructBlocks instrs) = true) ∧
    (∀ g : List Block, wfB g = true → wfB (findDeadBlockEdges g) = true) ∧
    (∀ (g : List Block) (subs : List SubRoutine),
      wfB g = true → wfB (assignSubRoutines g subs) = true) ∧
    (∀ (f : NCSFile) (bound : Nat),
      wfB f.blocks = true → wfB (analyzeStack f bound).blocks = true) :=
  ⟨wfB_iff, wfB_constructBlocks, wfB_findDeadBlockEdges, wfB_assignSubRoutines,
   wfB_analyzeStack⟩

/-- C3 witness: the concrete three-block graph satisfies the invariant, and
it still does after the dead-edge pass, after subroutine assignment, and
after an (abandoned) stack analysis. -/
theorem block_graph_invariant_witness :
    wfB wGraphFrame = true ∧
    wfB (findDeadBlockEdges wGraphFrame) = true ∧
    wfB (assignSubRoutines wGraphFrame [wStartSub]) = true ∧
    wfB (analyzeStack wFacade 0).blocks = true :=
  ⟨by decide,
   block_graph_invariant.2.2.1 wGraphFrame (by decide),
   block_graph_invariant.2.2.2.1 wGraphFrame [wStartSub] (by decide),
   block_graph_invariant.2.2.2.2 wFacade 0 (by decide)⟩

end NWScript
